import Mathlib

/-!
Verification of the DCFabric topology plotter's normalization pipeline.

Shallow embedding of the repository's Python sources:
  * `CorpNap`  — corp_nap_fabric_draw_agent/generate_bjs11_corp_nap.py
  * `Dsn`      — dsn_fabric_draw_agent/dsn_fabric_generator.py
  * `Console`  — console_fabric_draw_Agent/topology_generator_agent.py
  * `UmnProd`  — umn_prod_fabric_draw_Agent/umn_prod_topology_generator.py
  * `UmnEc2C`  — umn_ec2_fabric_draw_Agent/umn_ec2_topology_generator_complete.py
  * `UmnEc2`   — umn_ec2_fabric_draw_Agent/umn_ec2_topology_generator.py
  * `BrickUrl` — umn_ec2_fabric_draw_Agent/generate_brick_url.py

Python strings are Lean `String`s; the Python string primitives used by the
code (`startswith`, `endswith`, `in`, `split`, slicing) are re-implemented
below over `String.toList` so that their operational behaviour matches
CPython's on the inputs the programs handle.  Python dicts are
insertion-ordered association lists; Python sets are first-occurrence
deduplicated lists.  `sorted` is embedded as insertion sort under `strLe`:
for the linear order on strings any sorting algorithm yields the same list,
which matches CPython's lexicographic sort on ASCII data.
-/

namespace DCFab

/-! ### String helpers (Python string primitives) -/

/-- Build a `String` from its character list. -/
def mkStr (cs : List Char) : String := String.mk cs

/-- Python `needle in line` would be a substring test; this is the
prefix test `line.startswith(needle)` over character lists. -/
def startsW (pat s : String) : Bool := pat.toList.isPrefixOf s.toList

/-- Python `line.endswith(pat)`. -/
def endsW (pat s : String) : Bool := pat.toList.isSuffixOf s.toList

/-- Substring containment over character lists: Python `pat in s`. -/
def containsSubL (pat : List Char) : List Char → Bool
  | [] => pat.isEmpty
  | c :: rest => pat.isPrefixOf (c :: rest) || containsSubL pat rest

/-- Python `pat in s` (substring containment). -/
def containsSub (pat s : String) : Bool := containsSubL pat.toList s.toList

/-- Split a character list at every character satisfying `p`. -/
def splitPredGo (p : Char → Bool) : List Char → List Char → List (List Char)
  | [], acc => [acc.reverse]
  | c :: rest, acc =>
    if p c then acc.reverse :: splitPredGo p rest []
    else splitPredGo p rest (c :: acc)

/-- Python `s.split()` — split on whitespace runs, dropping empty pieces. -/
def wordsOf (s : String) : List String :=
  ((splitPredGo Char.isWhitespace s.toList []).map mkStr).filter (fun w => w ≠ "")

/-- Worker for `pySplit`: scan for the (nonempty) separator `s0 :: sep`,
non-overlapping, left to right; `skip` counts separator characters still
to be consumed after a match. -/
def splitSepGo (s0 : Char) (sep : List Char) :
    List Char → List Char → Nat → List (List Char)
  | [], acc, _ => [acc.reverse]
  | c :: rest, acc, skip =>
    match skip with
    | n + 1 => splitSepGo s0 sep rest acc n
    | 0 =>
      if (s0 :: sep).isPrefixOf (c :: rest) then
        acc.reverse :: splitSepGo s0 sep rest [] sep.length
      else splitSepGo s0 sep rest (c :: acc) 0

/-- Python `s.split(sep)` for a nonempty separator (CPython raises on an
empty one; none of the embedded call sites uses one). -/
def pySplit (s sep : String) : List String :=
  match sep.toList with
  | [] => [s]
  | c :: rest => (splitSepGo c rest s.toList [] 0).map mkStr

/-- Python `s.strip()` (ASCII whitespace at both ends). -/
def pyStrip (s : String) : String :=
  mkStr (((s.toList.dropWhile Char.isWhitespace).reverse.dropWhile
    Char.isWhitespace).reverse)

/-- Python `s[:n]` for a nonnegative `n`. -/
def strTake (s : String) (n : Nat) : String := mkStr (s.toList.take n)

/-- Python `s[:-n]` (drop the last `n` characters). -/
def strDropRight (s : String) (n : Nat) : String :=
  mkStr (s.toList.take (s.toList.length - n))

/-- Lexicographic `≤` on character lists — CPython's string comparison
(code-point order). -/
def charListLe : List Char → List Char → Bool
  | [], _ => true
  | _ :: _, [] => false
  | a :: as, b :: bs => if a = b then charListLe as bs else decide (a < b)

/-- Lexicographic `≤` on strings, used to embed Python's `sorted` and
`sorted([a, b])`. -/
def strLe (a b : String) : Bool := charListLe a.toList b.toList

/-- The sorting relation for Python's `sorted` on strings. -/
def StrLeR (a b : String) : Prop := strLe a b = true

instance : DecidableRel StrLeR := fun a b => by
  unfold StrLeR; infer_instance

/-- Python's `sorted` on a list of strings. -/
def pySort (l : List String) : List String := List.insertionSort StrLeR l

/-- `min` of two strings under the lexicographic order (Python
`sorted([a, b])[0]`). -/
def minS (a b : String) : String := if strLe a b then a else b

/-- `max` of two strings under the lexicographic order (Python
`sorted([a, b])[1]`). -/
def maxS (a b : String) : String := if strLe a b then b else a

/-- Python tuple comparison on a `(kind char, digit string)` key. -/
def kindNumLe (a b : Char × String) : Bool :=
  if a.1 = b.1 then strLe a.2 b.2 else decide (a.1 < b.1)

/-- Python's `sorted` keyed by a string projection. -/
def pySortBy {α : Type} (f : α → String) (l : List α) : List α :=
  List.insertionSort (fun a b => StrLeR (f a) (f b)) l

/-- Concatenate a list of strings (Python `''.join(l)`). -/
def joinStr : List String → String
  | [] => ""
  | s :: rest => s ++ joinStr rest

/-- Python `','.join(l)`. -/
def joinComma : List String → String
  | [] => ""
  | [s] => s
  | s :: rest => s ++ "," ++ joinComma rest

/-- ASCII lowercase letter test — the `[a-z]` character class. -/
def isLowerAZ (c : Char) : Bool := decide ('a' ≤ c) && decide (c ≤ 'z')

/-! ### Dict / set helpers (Python containers) -/

/-- First-occurrence lookup in an association list (Python `d[k]` /
`d.get(k)`): keys are unique in all lists we build, so the first hit is
the dict entry. -/
def lookupA {β : Type} (l : List (String × β)) (k : String) : Option β :=
  match l with
  | [] => none
  | (k', v) :: rest => if k' = k then some v else lookupA rest k

/-- Python `set.add`: append when absent (insertion-ordered set). -/
def insertOnce (x : String) (l : List String) : List String :=
  if x ∈ l then l else l ++ [x]

/-- Worker for `dedupFirst`, carrying the set of already-kept elements. -/
def dedupGo (seen : List String) : List String → List String
  | [] => []
  | x :: rest =>
    if x ∈ seen then dedupGo seen rest else x :: dedupGo (x :: seen) rest

/-- First-occurrence deduplication (the content of a Python set built by
repeated `add` in list order). -/
def dedupFirst (l : List String) : List String := dedupGo [] l

/-- Python `defaultdict(list)`: `d[k].append(v)` — extend the entry in
place, or append a new entry at the end. -/
def ddAppend {β : Type} (k : String) (v : β) :
    List (String × List β) → List (String × List β)
  | [] => [(k, [v])]
  | (k', vs) :: rest =>
    if k' = k then (k', vs ++ [v]) :: rest else (k', vs) :: ddAppend k v rest

/-- Python `defaultdict(list)`: `d[k].extend(vs)`. -/
def ddExtend {β : Type} (k : String) (vs : List β) :
    List (String × List β) → List (String × List β)
  | [] => [(k, vs)]
  | (k', vs') :: rest =>
    if k' = k then (k', vs' ++ vs) :: rest else (k', vs') :: ddExtend k vs rest

/-- Python dict assignment `d[k] = v`: replace in place, or append. -/
def dAssign {β : Type} (k : String) (v : β) :
    List (String × β) → List (String × β)
  | [] => [(k, v)]
  | (k', v') :: rest =>
    if k' = k then (k, v) :: rest else (k', v') :: dAssign k v rest

/-! ### Shared data model -/

/-- A raw or canonical connection record: the Python dicts
`{'source': …, 'target': …, 'type': …}`. -/
structure Conn where
  source : String
  target : String
  ctype : String
deriving DecidableEq, Repr

/-- A shape element of the emitted diagram document (`mxCell` with
`vertex="1"` plus its `mxGeometry`). -/
structure Shape where
  id : Nat
  value : String
  style : String
  x : Nat
  y : Nat
  w : Nat
  h : Nat
deriving DecidableEq, Repr

/-- A connector element of the emitted diagram document (`mxCell` with
`edge="1"`), referencing shape identifiers. -/
structure Connector where
  id : Nat
  value : String
  style : String
  source : Nat
  target : Nat
deriving DecidableEq, Repr

/-- The structured core of an emitted draw.io document: the ordered shape
cells followed by the ordered connector cells. -/
structure Doc where
  shapes : List Shape
  connectors : List Connector
deriving DecidableEq, Repr

/-! ### corp_nap_fabric_draw_agent/generate_bjs11_corp_nap.py -/

namespace CorpNap

/-- The category denylist of `parse_attr_content`: the Python test
`line.startswith(('IBGPNEIGH', 'EBGPNEIGH', 'RRCLIENTNEIGH'))` on the
stripped line. -/
def isDeny (l : String) : Bool :=
  startsW "IBGPNEIGH" l || startsW "EBGPNEIGH" l || startsW "RRCLIENTNEIGH" l

/-- One step of the first pass of `parse_attr_content`: a
hostname-declaration line replaces `current_device` and records the
device.  `line.split()[1]` raises `IndexError` on a one-word line, so the
step is `Except`-valued. -/
def hostStep (st : List String × Option String) (raw : String) :
    Except Unit (List String × Option String) :=
  let l := pyStrip raw
  if startsW "HOSTNAME" l then
    match (wordsOf l)[1]? with
    | some d => .ok (insertOnce d st.1, some d)
    | none => .error ()
  else .ok st

/-- One step of the CUSTOMERLAG pass of `parse_attr_content`.  The line is
stripped; `parts[-1]` is total here because a stripped line starting with
`CUSTOMERLAG` has at least one word. -/
def customerStep (cur : Option String) (st : List String × List Conn)
    (raw : String) : List String × List Conn :=
  let l := pyStrip raw
  if startsW "CUSTOMERLAG" l && containsSub "DESC" l then
    let cd := ((wordsOf l).getLast?).getD ""
    let devs := insertOnce cd st.1
    match cur with
    | some c => (devs, st.2 ++ [⟨c, cd, "customer"⟩])
    | none => (devs, st.2)
  else st

/-- One step of the RINGLAG pass of `parse_attr_content`. -/
def ringStep (cur : Option String) (st : List String × List Conn)
    (raw : String) : List String × List Conn :=
  let l := pyStrip raw
  if startsW "RINGLAG" l && containsSub "DESC" l then
    let rd := ((wordsOf l).getLast?).getD ""
    let devs := insertOnce rd st.1
    match cur with
    | some c => (devs, st.2 ++ [⟨c, rd, "ring"⟩])
    | none => (devs, st.2)
  else st

/-- One step of the PEER pass of `parse_attr_content`: a line containing
`PEER` that does not start with a denylisted neighbor keyword. -/
def peerStep (cur : Option String) (st : List String × List Conn)
    (raw : String) : List String × List Conn :=
  let l := pyStrip raw
  if containsSub "PEER" l && !(isDeny l) then
    let parts := wordsOf l
    if 3 ≤ parts.length then
      let pd := (parts.getLast?).getD ""
      let devs := insertOnce pd st.1
      match cur with
      | some c =>
        let ct := if containsSub "FWPEER" l then "nap_firewall" else "nap_inter_region"
        (devs, st.2 ++ [⟨c, pd, ct⟩])
      | none => (devs, st.2)
    else st
  else st

/-- `parse_attr_content`, over the list of lines of the input
(`content.split('\n')`).  The Python runs four full passes over the
lines: `current_device` is fixed by the completed HOSTNAME pass before
any connection-bearing line is examined. -/
def parseAttrLines (lines : List String) :
    Except Unit (List String × List Conn) := do
  let (d0, cur) ← lines.foldlM hostStep ([], none)
  let st1 := lines.foldl (customerStep cur) (d0, [])
  let st2 := lines.foldl (ringStep cur) st1
  let st3 := lines.foldl (peerStep cur) st2
  return st3

/-- `parse_attr_content` on raw content. -/
def parseAttrContent (content : String) :
    Except Unit (List String × List Conn) :=
  parseAttrLines (pySplit content "\n")

/-- `deduplicate_connections`: resolve endpoints through the grouping map
(`dict.get(k, k)`), skip self-loops, and keep the first connection per
key `(sorted pair, type)`. -/
def resolveG (groups : List (String × String)) (d : String) : String :=
  (lookupA groups d).getD d

/-- The dedup key of a resolved pair plus category. -/
def connKey (s t ty : String) : String × String × String :=
  (minS s t, maxS s t, ty)

/-- Worker of `deduplicate_connections`, carrying the set of seen keys. -/
def dedupGoC (groups : List (String × String))
    (seen : List (String × String × String)) : List Conn → List Conn
  | [] => []
  | c :: rest =>
    let s := resolveG groups c.source
    let t := resolveG groups c.target
    if s = t then dedupGoC groups seen rest
    else
      let k := connKey s t c.ctype
      if k ∈ seen then dedupGoC groups seen rest
      else ⟨s, t, c.ctype⟩ :: dedupGoC groups (k :: seen) rest

/-- `deduplicate_connections(connections, device_groups)`. -/
def deduplicateConnections (conns : List Conn)
    (groups : List (String × String)) : List Conn :=
  dedupGoC groups [] conns

end CorpNap

/-! ### dsn_fabric_draw_agent/dsn_fabric_generator.py -/

namespace Dsn

/-- `construct_urls(site)`: `site[:3]` never fails, whatever the string. -/
def constructUrls (site : String) : List String :=
  let region := strTake site 3
  [ "https://code.amazon.com/packages/GenevaBuilderDCNE/blobs/mainline/--/targetspec/dc-corp-"
      ++ region ++ "/" ++ site ++ "-co-agg-r/" ++ site ++ "-co-agg-r3/dsn.attr",
    "https://code.amazon.com/packages/GenevaBuilderDCNE/blobs/mainline/--/targetspec/dc-corp-"
      ++ region ++ "/" ++ site ++ "-co-agg-r/" ++ site ++ "-co-agg-r1/dsn.attr",
    "https://code.amazon.com/packages/GenevaBuilderDCNE/blobs/mainline/--/targetspec/dc-corp-"
      ++ region ++ "/" ++ site ++ "-co-agg-r/" ++ site ++ "-co-agg-r2/dsn.attr" ]

/-- The `[a-z0-9-]` character class of the extraction regexes. -/
def isDevChar (c : Char) : Bool := isLowerAZ c || c.isDigit || c = '-'

/-- Attempt `lit` + `\s+` + `([a-z0-9-]+)` at the head of `cs`, returning
the capture.  The whitespace and device-character classes are disjoint, so
maximal munch coincides with the regex engine's backtracking. -/
def tryLitDev (lit : List Char) (cs : List Char) : Option String :=
  if lit.isPrefixOf cs then
    let l2 := cs.drop lit.length
    let ws := l2.takeWhile Char.isWhitespace
    if ws.isEmpty then none
    else
      let cap := (l2.drop ws.length).takeWhile isDevChar
      if cap.isEmpty then none else some (mkStr cap)
  else none

/-- `re.search(lit + r'\s+([a-z0-9-]+)', line)`: try every start
position, leftmost match wins. -/
def searchLitDev (lit : List Char) : List Char → Option String
  | [] => none
  | c :: rest =>
    match tryLitDev lit (c :: rest) with
    | some cap => some cap
    | none => searchLitDev lit rest

/-- One pass of `parse_dsn_content`: the lines are stripped, gated by the
substring conditions `gates`, searched with `searchLitDev lit`, and each
hit emits one connection from the fixed source device. -/
def dsnPass (source : String) (gates : List String) (lit : List Char)
    (ty : String) (st : List String × List Conn) (raw : String) :
    List String × List Conn :=
  let l := pyStrip raw
  if gates.all (fun g => containsSub g l) then
    match searchLitDev lit l.toList with
    | some tgt => (insertOnce tgt st.1, st.2 ++ [⟨source, tgt, ty⟩])
    | none => st
  else st

/-- `parse_dsn_content(content, site)`: PARENT-CHILD-INTF, IBGP-NEIGH and
SWITCH passes, in that order, with the sole source device
`{site}-co-agg-r`. -/
def parseDsnContent (content site : String) : List String × List Conn :=
  let source := site ++ "-co-agg-r"
  let lines := pySplit content "\n"
  let st1 := lines.foldl
    (dsnPass source ["DSN PARENT-CHILD-INTF", "<-->"] "<-->".toList "physical")
    ([source], [])
  let st2 := lines.foldl
    (dsnPass source ["IBGP-NEIGH", "IP"] "IBGP-NEIGH".toList "bgp") st1
  lines.foldl
    (dsnPass source ["DSN NAME", "SWITCH INTF", "-->"] "-->".toList "switch") st2

/-- The regex `(.+)-r(\d+)$` of dsn's `group_devices`: with greedy `(.+)`
the suffix is the maximal trailing digit run, preceded by `-r`, with a
nonempty base. -/
def parseRN (d : String) : Option (String × String) :=
  let rev := d.toList.reverse
  let ds := rev.takeWhile Char.isDigit
  if ds.isEmpty then none
  else
    match rev.drop ds.length with
    | 'r' :: '-' :: base =>
      if base.isEmpty then none else some (mkStr base.reverse, mkStr ds.reverse)
    | _ => none

/-- Phase 1 of dsn's `group_devices`: bucket matching devices under their
base (`defaultdict` append), and assign non-matching devices a singleton
entry keyed by their own name (`d[k] = [...]`, which replaces). -/
def groupPhase1 (devices : List String) :
    List (String × List (String × Option String)) :=
  devices.foldl
    (fun acc d =>
      match parseRN d with
      | some (b, n) => ddAppend b (d, some n) acc
      | none => dAssign d [(d, (none : Option String))] acc)
    []

/-- Phase 2 of dsn's `group_devices`: multi-member bases get the joined
label `base-r[nums]` with the suffix digit-strings sorted as strings;
singletons map to themselves.  (Python would raise comparing a `None`
suffix against a string; the theorems' hypotheses exclude the inputs on
which that occurs, and the `getD ""` default is never read there.) -/
def groupPhase2 (entries : List (String × List (String × Option String))) :
    List (String × String) :=
  entries.foldl
    (fun acc e =>
      let members := e.2
      if 1 < members.length then
        let sorted := pySortBy (fun m : String × Option String => m.2.getD "") members
        let nums := joinStr (sorted.map (fun m => m.2.getD ""))
        let gname := e.1 ++ "-r[" ++ nums ++ "]"
        sorted.foldl (fun a m => dAssign m.1 gname a) acc
      else
        match members with
        | [m] => dAssign m.1 m.1 acc
        | _ => acc)
    []

/-- dsn's `group_devices(devices)`. -/
def groupDevices (devices : List String) : List (String × String) :=
  groupPhase2 (groupPhase1 devices)

/-- dsn's `deduplicate_connections` is character-for-character identical
to corp_nap's. -/
def deduplicateConnections : List Conn → List (String × String) → List Conn :=
  CorpNap.deduplicateConnections

/-- `get_device_color(device_name, site)`. -/
def getDeviceColor (device site : String) : String :=
  if device = site ++ "-co-agg-r" || containsSub (site ++ "-co-agg-r[") device then
    "#FFE6CC"
  else if containsSub "co-agg" device || containsSub "co-cor" device then
    "#D5E8D4"
  else "#DAE8FC"

/-- `get_connection_color(conn_type)`. -/
def getConnectionColor (ty : String) : String :=
  if ty = "physical" then "#0066CC"
  else if ty = "bgp" then "#009900"
  else if ty = "switch" then "#CC6600"
  else "#666666"

/-- The device-cell loop of dsn's `generate_drawio_xml`: shapes on a
fixed-pitch grid (x step 200, wrap past 800 to a new row 120 lower),
identifiers counting up, together with the `device_cells` map. -/
def placeCells (site : String) (cid x y : Nat) :
    List String → List Shape × List (String × Nat)
  | [] => ([], [])
  | d :: rest =>
    let sh : Shape :=
      ⟨cid, d,
        "rounded=1;whiteSpace=wrap;html=1;fillColor=" ++ getDeviceColor d site
          ++ ";strokeColor=#000000;", x, y, 160, 60⟩
    let x2 := x + 200
    let nxy := if 800 < x2 then (100, y + 120) else (x2, y)
    let rec_ := placeCells site (cid + 1) nxy.1 nxy.2 rest
    (sh :: rec_.1, (d, cid) :: rec_.2)

/-- The connection-cell loop of dsn's `generate_drawio_xml`: an edge is
emitted only when both endpoints are in `device_cells`; the identifier
counter advances only on emission. -/
def emitConns (cells : List (String × Nat)) (cid : Nat) :
    List Conn → List Connector
  | [] => []
  | c :: rest =>
    match lookupA cells c.source, lookupA cells c.target with
    | some s, some t =>
      ⟨cid, c.ctype,
        "endArrow=none;html=1;strokeColor=" ++ getConnectionColor c.ctype
          ++ ";strokeWidth=2;", s, t⟩ :: emitConns cells (cid + 1) rest
    | _, _ => emitConns cells cid rest

/-- The sorted, de-duplicated device list of `generate_drawio_xml`
(`sorted(set(devices))`). -/
def uniqDevices (devices : List String) : List String :=
  pySort (dedupFirst devices)

/-- The `device_cells` map of `generate_drawio_xml`. -/
def deviceCells (devices : List String) (site : String) : List (String × Nat) :=
  (placeCells site 2 100 100 (uniqDevices devices)).2

/-- dsn's `generate_drawio_xml(devices, connections, site)`, down to the
structured cell content of the document. -/
def generateDrawioXml (devices : List String) (conns : List Conn)
    (site : String) : Doc :=
  let uniq := uniqDevices devices
  let pc := placeCells site 2 100 100 uniq
  ⟨pc.1, emitConns pc.2 (2 + uniq.length) conns⟩

/-- dsn's `main()` pipeline after content is read: parse, group, collect
`sorted(set(device_groups.values()))`, deduplicate, emit. -/
def mainRun (site content : String) : Doc :=
  let pc := parseDsnContent content site
  let dg := groupDevices pc.1
  let grouped := pySort (dedupFirst (dg.map Prod.snd))
  let uc := deduplicateConnections pc.2 dg
  generateDrawioXml grouped uc site

end Dsn

/-! ### console_fabric_draw_Agent/topology_generator_agent.py -/

namespace Console

/-- A brick connection record of `extract_topology_data`:
`{'source', 'destination', 'interface', 'interface_type'}`. -/
structure CConn where
  source : String
  destination : String
  iface : String
  itype : String
deriving DecidableEq, Repr

/-- The result of `categorize_device`. -/
structure Cat where
  site : String
  dtype : String
  role : String
  color : String
  isTarget : Bool
deriving DecidableEq, Repr

/-- The site regex `^([a-z]+\d+-\d+)` (prefix match): maximal runs of
lowercase letters, digits, a hyphen, digits; empty string when the prefix
fails.  The character classes are disjoint, so maximal munch coincides
with the regex engine's backtracking. -/
def sitePart (name : String) : String :=
  let cs := name.toList
  let a := cs.takeWhile isLowerAZ
  let r1 := cs.drop a.length
  let b := r1.takeWhile Char.isDigit
  let r2 := r1.drop b.length
  if a.isEmpty || b.isEmpty then ""
  else
    match r2 with
    | '-' :: r3 =>
      let c := r3.takeWhile Char.isDigit
      if c.isEmpty then "" else mkStr (a ++ b ++ '-' :: c)
    | _ => ""

/-- The module-level `DEVICE_COLORS` table. -/
def deviceColors (k : String) : Option String :=
  if k = "mgmt-cor" then some "#FFE6CC"
  else if k = "mgmt-cor-v" then some "#FFE6CC"
  else if k = "es-cor" then some "#D5E8D4"
  else if k = "fnc-cor" then some "#D5E8D4"
  else if k = "es-c1" then some "#DAE8FC"
  else if k = "es-mgmt" then some "#FFF2CC"
  else if k = "es-x1-mgmt" then some "#F8CECC"
  else if k = "tt-acc" then some "#E6D0DE"
  else if k = "cv1-agg" then some "#D0E0E3"
  else if k = "inter-az" then some "#E8E8E8"
  else none

/-- `categorize_device(device_name)`: prioritized substring cascade. -/
def categorize (selfSite name : String) : Cat :=
  let site := sitePart name
  let dr :=
    if containsSub "-mgmt-cor-r" name then ("mgmt-cor", "Management Core")
    else if containsSub "-mgmt-cor-v" name then ("mgmt-cor-v", "Virtual Mgmt Core")
    else if containsSub "-es-cor-r" name || containsSub "-fnc-cor-r" name then
      ("es-cor", "Edge Services Core")
    else if containsSub "-es-c1-b" name && containsSub "-t1-r" name then
      ("es-c1", "ES-C1 Compute")
    else if containsSub "-es-c1-mgmt" name then ("es-c1", "ES-C1 Mgmt")
    else if containsSub "-es-e1-mgmt" name then ("es-mgmt", "E1 Edge Mgmt")
    else if containsSub "-es-e2-mgmt" name then ("es-mgmt", "E2 Edge Mgmt")
    else if containsSub "-es-x1-mgmt" name then ("es-x1-mgmt", "X1 Mgmt")
    else if containsSub "-tt-acc" name then ("tt-acc", "Transit Access")
    else if containsSub "-cv1-agg" name then ("cv1-agg", "CV1 Agg")
    else ("unknown", "Unknown")
  ⟨site, dr.1, dr.2, (deviceColors dr.1).getD "#FFFFFF", site = selfSite⟩

/-- `re.sub(r'-r[12]$', '', device)`. -/
def consoleBase (d : String) : String :=
  if endsW "-r1" d || endsW "-r2" d then strDropRight d 3 else d

/-- `group_devices(devices)`: devices are sorted lexicographically, then
bucketed by base with a `defaultdict` append. -/
def groupDevices (devices : List String) : List (String × List String) :=
  (pySort devices).foldl
    (fun acc d => ddAppend (consoleBase d) d acc) []

/-- The intra-site type-grouping loop of `extract_topology_data`:
`es-c1`/`es-mgmt` devices are pooled, everything else keeps its group. -/
def typeGroups (selfSite : String) (intraG : List (String × List String)) :
    List (String × List String) :=
  intraG.foldl
    (fun acc e =>
      let cat := categorize selfSite (e.2.headD "")
      if cat.dtype = "es-c1" then ddExtend "es-c1" e.2 acc
      else if cat.dtype = "es-mgmt" then ddExtend "es-mgmt" e.2 acc
      else dAssign e.1 e.2 acc)
    []

/-- The inter-site type-grouping loop of `extract_topology_data`: pooled
per extracted site for `es-c1`/`es-mgmt`. -/
def interTypeGroups (selfSite : String) (interG : List (String × List String)) :
    List (String × List String) :=
  interG.foldl
    (fun acc e =>
      let cat := categorize selfSite (e.2.headD "")
      let site := sitePart e.1
      if cat.dtype = "es-c1" then ddExtend (site ++ "-es-c1") e.2 acc
      else if cat.dtype = "es-mgmt" then ddExtend (site ++ "-es-mgmt") e.2 acc
      else dAssign e.1 e.2 acc)
    []

/-- A node record of `generate_drawio_xml`. -/
structure NodeData where
  label : String
  role : String
  color : String
  x : Nat
  y : Nat
  devices : List String
deriving DecidableEq, Repr

/-- The grouped multi-member label `group + '-r[' + ','.join(nums) + ']'`
with `nums = [d.split('-r')[-1] for d in sorted(devices)]`, or the bare
device name for a singleton. -/
def nodeLabel (devs : List String) (gname : String) : String :=
  if 1 < devs.length then
    let nums := (pySort devs).map
      (fun d => (((pySplit d "-r").getLast?).getD ""))
    gname ++ "-r[" ++ joinComma nums ++ "]"
  else (devs.headD "")

/-- One step of the intra-site node-placement loop (4 columns, pitch
280 × 150, origin (120, 100)). -/
def intraNodesStep (selfSite : String)
    (st : List (String × NodeData) × Nat × Nat) (e : String × List String) :
    List (String × NodeData) × Nat × Nat :=
  if e.2.isEmpty then st
  else
    let cat := categorize selfSite (e.2.headD "")
    let label :=
      if e.1 = "es-c1" || e.1 = "es-mgmt" then selfSite ++ "-" ++ e.1
      else nodeLabel e.2 e.1
    let x := 120 + st.2.1 * 280
    let y := 100 + st.2.2 * 150
    let nodes2 := dAssign e.1 ⟨label, cat.role, cat.color, x, y, e.2⟩ st.1
    let col2 := st.2.1 + 1
    if 4 ≤ col2 then (nodes2, 0, st.2.2 + 1) else (nodes2, col2, st.2.2)

/-- One step of the inter-site node-placement loop (5 columns). -/
def interNodesStep (st : List (String × NodeData) × Nat × Nat)
    (e : String × List String) : List (String × NodeData) × Nat × Nat :=
  if e.2.isEmpty then st
  else
    let label := nodeLabel e.2 e.1
    let x := 120 + st.2.1 * 280
    let y := 100 + st.2.2 * 150
    let nodes2 := dAssign e.1 ⟨label, "Inter-AZ", "#E8E8E8", x, y, e.2⟩ st.1
    let col2 := st.2.1 + 1
    if 5 ≤ col2 then (nodes2, 0, st.2.2 + 1) else (nodes2, col2, st.2.2)

/-- The node-building part of `generate_drawio_xml`: intra-site groups in
sorted key order, then `row += 2`, then inter-site groups in sorted key
order. -/
def buildNodes (selfSite : String) (tg ig : List (String × List String)) :
    List (String × NodeData) :=
  let s1 := (pySortBy (fun e : String × List String => e.1) tg).foldl
    (intraNodesStep selfSite) ([], 0, 0)
  ((pySortBy (fun e : String × List String => e.1) ig).foldl
    interNodesStep (s1.1, 0, s1.2.2 + 2)).1

/-- The node style strings of `_build_xml`. -/
def nodeStyle (isInter : Bool) (color : String) : String :=
  if isInter then
    "rounded=1;whiteSpace=wrap;html=1;fillColor=" ++ color
      ++ ";strokeColor=#666666;strokeWidth=2;fontStyle=0;fontSize=11;shadow=1;"
  else
    "rounded=1;whiteSpace=wrap;html=1;fillColor=" ++ color
      ++ ";strokeColor=#000000;strokeWidth=2;fontStyle=0;fontSize=12;shadow=1;"

/-- The shape-emission loop of `_build_xml`: one 220 × 90 shape per node,
building `node_ids` and `device_to_node` (dict assignments accumulated
left to right) on the way. -/
def buildShapes (nodes : List (String × NodeData)) :
    List Shape × List (String × Nat) × List (String × String) × Nat :=
  nodes.foldl
    (fun st e =>
      let labelHtml := "<b>" ++ e.2.label ++ "</b><br/><i>" ++ e.2.role ++ "</i>"
      let sh : Shape :=
        ⟨st.2.2.2, labelHtml, nodeStyle (e.2.role = "Inter-AZ") e.2.color,
          e.2.x, e.2.y, 220, 90⟩
      (st.1 ++ [sh], dAssign e.1 st.2.2.2 st.2.1,
        e.2.devices.foldl (fun m d => dAssign d e.1 m) st.2.2.1,
        st.2.2.2 + 1))
    ([], [], [], 2)

/-- The connection-emission loop of `_build_xml`: endpoints are resolved
through `device_to_node` (a falsy — missing or empty — node key skips the
edge), duplicates per unordered node pair are skipped, and there is no
self-loop check. -/
def buildConns (selfSite : String) (nodeIds : List (String × Nat))
    (d2n : List (String × String)) (added : List (String × String))
    (cid : Nat) : List CConn → List Connector
  | [] => []
  | c :: rest =>
    match lookupA d2n c.source, lookupA d2n c.destination with
    | some sn, some tn =>
      if sn = "" || tn = "" then buildConns selfSite nodeIds d2n added cid rest
      else
        let k := (minS sn tn, maxS sn tn)
        if k ∈ added then buildConns selfSite nodeIds d2n added cid rest
        else
          let style :=
            if containsSub "es-c1" c.source || containsSub "es-c1" c.destination then
              "edgeStyle=orthogonalEdgeStyle;rounded=1;orthogonalLoop=1;jettySize=auto;html=1;strokeColor=#0066CC;strokeWidth=4;shadow=1;"
            else if (categorize selfSite c.source).site ≠ (categorize selfSite c.destination).site then
              "edgeStyle=orthogonalEdgeStyle;rounded=1;orthogonalLoop=1;jettySize=auto;html=1;strokeColor=#999999;strokeWidth=2.5;shadow=1;"
            else
              "edgeStyle=orthogonalEdgeStyle;rounded=1;orthogonalLoop=1;jettySize=auto;html=1;strokeColor=#333333;strokeWidth=2.5;shadow=1;"
          ⟨cid, "", style, (lookupA nodeIds sn).getD 0, (lookupA nodeIds tn).getD 0⟩
            :: buildConns selfSite nodeIds d2n (k :: added) (cid + 1) rest
    | _, _ => buildConns selfSite nodeIds d2n added cid rest

/-- `_build_xml(nodes, connections)`, down to the structured cells. -/
def buildXml (selfSite : String) (nodes : List (String × NodeData))
    (conns : List CConn) : Doc :=
  let bs := buildShapes nodes
  ⟨bs.1, buildConns selfSite bs.2.1 bs.2.2.1 [] bs.2.2.2 conns⟩

/-- The console pipeline from structured input (device set, raw brick
connections, target site) to the document: the intra/inter split,
`group_devices` on each side, type-grouping, node building and
`_build_xml`. -/
def generate (site : String) (devices : List String) (conns : List CConn) :
    Doc :=
  let intra := devices.filter (fun d => startsW site d)
  let inter := devices.filter (fun d => !(startsW site d))
  let tg := typeGroups site (groupDevices intra)
  let ig := interTypeGroups site (groupDevices inter)
  buildXml site (buildNodes site tg ig) conns

end Console

/-! ### umn_prod_fabric_draw_Agent/umn_prod_topology_generator.py -/

namespace UmnProd

/-- The structured content of a SwitchBuilder brick file:
`DEVICE_DETAILS` keys and `NODES_AND_INTERFACES`
(device → interface → optional `remote_device`). -/
structure Brick where
  deviceDetails : List String
  nodesAndInterfaces : List (String × List (String × Option String))
deriving Repr

/-- `site.split('-')[0] + '-' + site.split('-')[1]` (Python raises when
the site has no hyphen; the default-empty part only arises there). -/
def siteAz (site : String) : String :=
  let parts := pySplit site "-"
  (parts.getD 0 "") ++ "-" ++ (parts.getD 1 "")

/-- The inner interface loop of `parse_brick_content`: a truthy remote
device on an edge with at least one endpoint in the target AZ adds both
endpoints to `connected_devices` and appends the connection. -/
def brickIfaceStep (az source : String) (st : List String × List Conn)
    (iface : String × Option String) : List String × List Conn :=
  match iface.2 with
  | some tgt =>
    if tgt = "" then st
    else if startsW az source || startsW az tgt then
      (insertOnce tgt (insertOnce source st.1), st.2 ++ [⟨source, tgt, "physical"⟩])
    else st
  | none => st

/-- `parse_brick_content` after JSON decoding: collect connections
touching the target AZ, then keep `connected_devices ∩ all_devices` as
the device list. -/
def parseBrickContent (brick : Brick) (site : String) :
    List String × List Conn :=
  let az := siteAz site
  let st := brick.nodesAndInterfaces.foldl
    (fun st e => e.2.foldl (brickIfaceStep az e.1) st) ([], [])
  (st.1.filter (fun d => d ∈ brick.deviceDetails), st.2)

/-- The regex `(.+)-([rv])(\d+)$` of `group_devices`: maximal trailing
digit run, preceded by `r` or `v`, preceded by `-`, nonempty base. -/
def parseRV (d : String) : Option (String × Char × String) :=
  let rev := d.toList.reverse
  let ds := rev.takeWhile Char.isDigit
  if ds.isEmpty then none
  else
    match rev.drop ds.length with
    | k :: '-' :: base =>
      if (k = 'r' || k = 'v') && !base.isEmpty then
        some (mkStr base.reverse, k, mkStr ds.reverse)
      else none
    | _ => none

/-- Phase 1 of umn_prod's `group_devices`: bucket matching devices under
their base; a non-matching device gets a singleton entry assigned under
its own name. -/
def groupPhase1 (devices : List String) :
    List (String × List (String × Option (Char × String))) :=
  devices.foldl
    (fun acc d =>
      match parseRV d with
      | some (b, k, n) => ddAppend b (d, some (k, n)) acc
      | none => dAssign d [(d, (none : Option (Char × String)))] acc)
    []

/-- Suffix-kind projection used for sorting and filtering members
(`x[1]`); the default is never read on the inputs covered by the
theorems (Python would raise comparing `None` with `str` there). -/
def memKind (m : String × Option (Char × String)) : Char :=
  (m.2.map Prod.fst).getD ' '

/-- Suffix-number projection (`x[2]`). -/
def memNum (m : String × Option (Char × String)) : String :=
  (m.2.map Prod.snd).getD ""

/-- Phase 2 of umn_prod's `group_devices`: for a multi-member base, sort
by (kind, number), merge the `r` members into `base-r[nums]` when there
are at least two, keep a single `r` member and every `v` member as
themselves; singleton bases map to themselves. -/
def groupPhase2
    (entries : List (String × List (String × Option (Char × String)))) :
    List (String × String) :=
  entries.foldl
    (fun acc e =>
      let members := e.2
      if 1 < members.length then
        let sorted := List.insertionSort
          (fun a b => kindNumLe (memKind a, memNum a) (memKind b, memNum b) = true)
          members
        let rDevs := sorted.filter (fun m => memKind m = 'r')
        let vDevs := sorted.filter (fun m => memKind m = 'v')
        let acc1 :=
          if 1 < rDevs.length then
            let nums := joinStr (rDevs.map memNum)
            let gname := e.1 ++ "-r[" ++ nums ++ "]"
            rDevs.foldl (fun a m => dAssign m.1 gname a) acc
          else
            match rDevs with
            | [m] => dAssign m.1 m.1 acc
            | _ => acc
        vDevs.foldl (fun a m => dAssign m.1 m.1 a) acc1
      else
        match members with
        | [m] => dAssign m.1 m.1 acc
        | _ => acc)
    []

/-- umn_prod's `group_devices(devices)`. -/
def groupDevices (devices : List String) : List (String × String) :=
  groupPhase2 (groupPhase1 devices)

end UmnProd

/-! ### umn_ec2_fabric_draw_Agent/umn_ec2_topology_generator_complete.py -/

namespace UmnEc2C

/-- The regex `(.+)-([rv]\d+)$` of the complete generator's
`group_devices`: the whole suffix (`r…`/`v…`) is one group. -/
def parseSfx (d : String) : Option (String × String) :=
  let rev := d.toList.reverse
  let ds := rev.takeWhile Char.isDigit
  if ds.isEmpty then none
  else
    match rev.drop ds.length with
    | k :: '-' :: base =>
      if (k = 'r' || k = 'v') && !base.isEmpty then
        some (mkStr base.reverse, mkStr (k :: ds.reverse))
      else none
    | _ => none

/-- Phase 1: bucket every device under its base — a device without a
groupable suffix is appended under its own name with suffix `''`
(`defaultdict` append in both branches). -/
def groupPhase1 (devices : List String) : List (String × List (String × String)) :=
  devices.foldl
    (fun acc d =>
      match parseSfx d with
      | some (b, s) => ddAppend b (d, s) acc
      | none => ddAppend d (d, "") acc)
    []

/-- The grouped suffix of a multi-member base: `r[nums]` when all
suffixes are `r`-kind, `v[nums]` when all are `v`-kind, otherwise the
comma-joined raw suffixes in brackets. -/
def groupedSfx (sfxs : List String) : String :=
  if sfxs.all (fun s => startsW "r" s) then
    "r[" ++ joinStr (sfxs.map (fun s => mkStr (s.toList.drop 1))) ++ "]"
  else if sfxs.all (fun s => startsW "v" s) then
    "v[" ++ joinStr (sfxs.map (fun s => mkStr (s.toList.drop 1))) ++ "]"
  else "[" ++ joinComma sfxs ++ "]"

/-- Phase 2: multi-member bases become one entry
`base-<groupedSuffix> → member names` (suffix-sorted); singletons map to
themselves. -/
def groupPhase2 (entries : List (String × List (String × String))) :
    List (String × List String) :=
  entries.foldl
    (fun acc e =>
      if 1 < e.2.length then
        let sorted := pySortBy (fun m : String × String => m.2) e.2
        let gname := e.1 ++ "-" ++ groupedSfx (sorted.map Prod.snd)
        dAssign gname (sorted.map Prod.fst) acc
      else
        match e.2 with
        | [m] => dAssign m.1 [m.1] acc
        | _ => acc)
    []

/-- The complete generator's `group_devices` (device dict keys →
`grouped_devices` display map). -/
def groupDevices (devices : List String) : List (String × List String) :=
  groupPhase2 (groupPhase1 devices)

/-- Membership-based display group of a device: the first `grouped_devices`
entry whose member list contains it. -/
def groupOf (devices : List String) (d : String) : Option String :=
  ((groupDevices devices).find? (fun e => d ∈ e.2)).map Prod.fst

end UmnEc2C

/-! ### Site validation (umn_ec2_topology_generator.py `__init__`,
generate_brick_url.py `construct_brick_url`) -/

namespace UmnEc2

/-- `re.match(r'([a-z]+\d+)-(\d+)', site)` of the `UMNTopologyGenerator`
constructor: a prefix of lowercase letters, digits, a hyphen, digits; on
failure the constructor raises `ValueError`. -/
def reMatchSite (site : String) : Option (String × String) :=
  match site.toList.takeWhile isLowerAZ,
      (site.toList.dropWhile isLowerAZ).takeWhile Char.isDigit,
      (site.toList.dropWhile isLowerAZ).dropWhile Char.isDigit with
  | [], _, _ => none
  | _ :: _, [], _ => none
  | _ :: _, _ :: _, [] => none
  | a0 :: a1, b0 :: b1, c0 :: r3 =>
    if c0 = '-' then
      match r3.takeWhile Char.isDigit with
      | [] => none
      | d0 :: d1 => some (mkStr ((a0 :: a1) ++ b0 :: b1), mkStr (d0 :: d1))
    else none

/-- The site handling of `UMNTopologyGenerator.__init__`: root AZ and DC
on a match, `ValueError` otherwise. -/
def initSite (site : String) : Except String (String × String) :=
  match reMatchSite site with
  | some p => .ok p
  | none =>
    .error ("Invalid site format: " ++ site ++ ". Expected format: abc12-34")

end UmnEc2

namespace BrickUrl

/-- `re.match(r'^([a-z]{3})', site)` of `construct_brick_url`: exactly
three leading lowercase letters, else `ValueError`. -/
def constructBrickUrl (site fabric : String) : Except String String :=
  match site.toList with
  | c1 :: c2 :: c3 :: _ =>
    if isLowerAZ c1 && isLowerAZ c2 && isLowerAZ c3 then
      let region := mkStr [c1, c2, c3]
      let regionUpper := mkStr (region.toList.map Char.toUpper)
      .ok ("https://code.amazon.com/packages/SwitchBuilderBrickDef-EC2-"
        ++ regionUpper ++ "/blobs/mainline/--/configuration/etc/brick/EC2-"
        ++ regionUpper ++ "/" ++ region ++ "-" ++ fabric ++ ".brick")
    else .error ("Invalid site format: " ++ site ++ ". Expected format: xxx##-##")
  | _ => .error ("Invalid site format: " ++ site ++ ". Expected format: xxx##-##")

end BrickUrl

/-! ### The spec-side site-pattern predicate -/

/-- The expected target-site naming pattern of the specification: a
prefix of (one or more) lowercase letters, (one or more) digits, a
hyphen, (one or more) digits.  Written as an explicit decomposition,
independently of the implementations above. -/
def SitePattern (site : String) : Prop :=
  ∃ a b c r : List Char,
    site.toList = a ++ b ++ '-' :: c ++ r ∧
    a ≠ [] ∧ b ≠ [] ∧ c ≠ [] ∧
    (∀ ch ∈ a, isLowerAZ ch = true) ∧
    (∀ ch ∈ b, ch.isDigit = true) ∧
    (∀ ch ∈ c, ch.isDigit = true)

/-- The `^([a-z]{3})` condition of `construct_brick_url`, as an explicit
decomposition. -/
def ThreeLower (site : String) : Prop :=
  ∃ c1 c2 c3 r, site.toList = c1 :: c2 :: c3 :: r ∧
    isLowerAZ c1 = true ∧ isLowerAZ c2 = true ∧ isLowerAZ c3 = true

/-! ### Verification-side definitions -/

/-- First-`some` choice between two optional values. -/
def orElseO {α : Type} (x y : Option α) : Option α :=
  match x with
  | some v => some v
  | none => y

/-- Whether an `Except` computation raised. -/
def isErr {ε α : Type} : Except ε α → Bool
  | .error _ => true
  | .ok _ => false

instance {ε α : Type} [DecidableEq ε] [DecidableEq α] :
    DecidableEq (Except ε α)
  | .ok a, .ok b =>
    if h : a = b then isTrue (by rw [h]) else isFalse (by simp [h])
  | .ok _, .error _ => isFalse (by simp)
  | .error _, .ok _ => isFalse (by simp)
  | .error a, .error b =>
    if h : a = b then isTrue (by rw [h]) else isFalse (by simp [h])

/-- Apply a trace of dict assignments from left to right. -/
def applyW {β : Type} (m : List (String × β)) (ws : List (String × β)) :
    List (String × β) :=
  ws.foldl (fun a w => dAssign w.1 w.2 a) m

/-- The value of the last write to key `d` in a trace. -/
def lastW {β : Type} (d : String) : List (String × β) → Option β
  | [] => none
  | w :: rest =>
    match lastW d rest with
    | some v => some v
    | none => if w.1 = d then some w.2 else none

/-- Concatenation of the images of `f` (Python's nested loop append). -/
def catMap {α β : Type} (f : α → List β) : List α → List β
  | [] => []
  | a :: rest => f a ++ catMap f rest

/-- The values carried by key `k` in a key–value sequence, in order. -/
def selOf {β : Type} (kvs : List (String × β)) (k : String) : List β :=
  (kvs.filter (fun kv => kv.1 = k)).map Prod.snd

/-- Fold a key–value sequence into a `defaultdict(list)`. -/
def ddFold {β : Type} (kvs : List (String × β))
    (acc : List (String × List β)) : List (String × List β) :=
  kvs.foldl (fun a kv => ddAppend kv.1 kv.2 a) acc

/-- The keys of an association list, in order. -/
def keysOf {β : Type} (m : List (String × β)) : List String := m.map Prod.fst

/-- First-occurrence dedup of a pair list against a seen-set (the
`added_connections` set discipline of console's `_build_xml`). -/
def dedupGoP (seen : List (String × String)) :
    List (String × String) → List (String × String)
  | [] => []
  | k :: rest =>
    if k ∈ seen then dedupGoP seen rest
    else k :: dedupGoP (k :: seen) rest

namespace CorpNap

/-- The device named by a hostname-declaration line (`line.split()[1]`),
if any. -/
def hostnameOf (raw : String) : Option String :=
  let l := pyStrip raw
  if startsW "HOSTNAME" l then (wordsOf l)[1]? else none

/-- The device named by the last hostname-declaration line of the
input. -/
def lastHostname (lines : List String) : Option String :=
  (lines.filterMap hostnameOf).getLast?

/-- The dedup key of an already-resolved connection. -/
def ckey (e : Conn) : String × String × String :=
  connKey e.source e.target e.ctype

/-- The dedup key a raw connection resolves to under a grouping map. -/
def rkey (groups : List (String × String)) (c : Conn) :
    String × String × String :=
  connKey (resolveG groups c.source) (resolveG groups c.target) c.ctype

/-- The resolved form of a raw connection. -/
def resolveConn (groups : List (String × String)) (c : Conn) : Conn :=
  ⟨resolveG groups c.source, resolveG groups c.target, c.ctype⟩

end CorpNap

namespace Dsn

/-- The phase-1 classification key of a device (its base when the
`(.+)-r(\d+)$` pattern matches, its own name otherwise). -/
def keyOfDev (d : String) : String :=
  match parseRN d with
  | some (b, _) => b
  | none => d

/-- The phase-1 member pair a device contributes
(`(device, suffix digits)`). -/
def valOfDev (d : String) : String × Option String :=
  (d, (parseRN d).map Prod.snd)

/-- The key–value stream phase 1 folds over, when every device matches
the `-rN` pattern. -/
def kvsOf (ds : List String) : List (String × (String × Option String)) :=
  ds.map (fun d => (keyOfDev d, valOfDev d))

/-- The suffix digit-strings of the devices of `ds` whose base is `b`. -/
def numsOf (ds : List String) (b : String) : List String :=
  ds.filterMap (fun d =>
    match parseRN d with
    | some (b', n) => if b' = b then some n else none
    | none => none)

/-- The dict-assignment trace of one phase-2 entry of dsn's
`group_devices`. -/
def writesOf (e : String × List (String × Option String)) :
    List (String × String) :=
  if 1 < e.2.length then
    let sorted := pySortBy (fun m : String × Option String => m.2.getD "") e.2
    let gname := e.1 ++ "-r[" ++ joinStr (sorted.map (fun m => m.2.getD "")) ++ "]"
    sorted.map (fun m => (m.1, gname))
  else
    match e.2 with
    | [m] => [(m.1, m.1)]
    | _ => []

end Dsn

namespace Console

/-- The dedup key `tuple(sorted([src_node, dst_node]))` a raw brick
connection resolves to through `device_to_node` in `_build_xml`, `none`
when either endpoint is missing or falsy (the skipped edges).  The
category (`itype`) and interface are no part of the key. -/
def cKey (d2n : List (String × String)) (c : CConn) :
    Option (String × String) :=
  match lookupA d2n c.source, lookupA d2n c.destination with
  | some sn, some tn =>
    if sn = "" || tn = "" then none else some (minS sn tn, maxS sn tn)
  | _, _ => none

/-- The referential-integrity invariant of `_build_xml`'s shape loop
state: every node key `device_to_node` can produce is mapped by
`node_ids`, and every identifier `node_ids` holds is the identifier of
an emitted shape. -/
def ShapesInv
    (st : List Shape × List (String × Nat) × List (String × String) × Nat) :
    Prop :=
  (∀ d nk, lookupA st.2.2.1 d = some nk →
    ∃ i, lookupA st.2.1 nk = some i) ∧
  (∀ nk i, lookupA st.2.1 nk = some i → i ∈ st.1.map Shape.id)

end Console

namespace UmnProd

/-- The Site-Filter invariant of `parse_brick_content`'s accumulating
state: every collected connection touches the target AZ, and every
collected external device is an endpoint of a collected connection whose
other side is local. -/
def FilterInv (az : String) (st : List String × List Conn) : Prop :=
  (∀ c ∈ st.2, startsW az c.source = true ∨ startsW az c.target = true) ∧
  (∀ d ∈ st.1, startsW az d = false →
    ∃ c ∈ st.2, (c.source = d ∧ startsW az c.target = true) ∨
      (c.target = d ∧ startsW az c.source = true))

/-- The phase-1 classification key of a device under the umn_prod
pattern. -/
def keyOfDev (d : String) : String :=
  match parseRV d with
  | some (b, _, _) => b
  | none => d

/-- The phase-1 member pair a device contributes under the umn_prod
pattern. -/
def valOfDev (d : String) : String × Option (Char × String) :=
  (d, (parseRV d).map (fun p => (p.2.1, p.2.2)))

/-- The key–value stream phase 1 folds over, when every device matches
the `-[rv]N` pattern. -/
def kvsOf (ds : List String) :
    List (String × (String × Option (Char × String))) :=
  ds.map (fun d => (keyOfDev d, valOfDev d))

/-- The dict-assignment trace of one phase-2 entry of umn_prod's
`group_devices`. -/
def writesOf (e : String × List (String × Option (Char × String))) :
    List (String × String) :=
  if 1 < e.2.length then
    let sorted := List.insertionSort
      (fun a b => kindNumLe (memKind a, memNum a) (memKind b, memNum b) = true)
      e.2
    let rDevs := sorted.filter (fun m => memKind m = 'r')
    let vDevs := sorted.filter (fun m => memKind m = 'v')
    let rws :=
      if 1 < rDevs.length then
        let gname := e.1 ++ "-r[" ++ joinStr (rDevs.map memNum) ++ "]"
        rDevs.map (fun m => (m.1, gname))
      else
        match rDevs with
        | [m] => [(m.1, m.1)]
        | _ => []
    rws ++ vDevs.map (fun m => (m.1, m.1))
  else
    match e.2 with
    | [m] => [(m.1, m.1)]
    | _ => []

end UmnProd

/-! ### Dictionary lemmas -/

theorem lookupA_dAssign_self {β : Type} (k : String) (v : β)
    (m : List (String × β)) : lookupA (dAssign k v m) k = some v := by
  induction m with
  | nil => simp [dAssign, lookupA]
  | cons kv rest ih =>
    by_cases h : kv.1 = k
    · obtain ⟨k', v'⟩ := kv
      simp only at h
      simp [dAssign, lookupA, h]
    · obtain ⟨k', v'⟩ := kv
      simp only at h
      simp [dAssign, lookupA, h, ih]

theorem lookupA_dAssign_ne {β : Type} {k d : String} (v : β)
    (m : List (String × β)) (h : k ≠ d) :
    lookupA (dAssign k v m) d = lookupA m d := by
  induction m with
  | nil => simp [dAssign, lookupA, h]
  | cons kv rest ih =>
    obtain ⟨k', v'⟩ := kv
    by_cases h2 : k' = k
    · subst h2
      simp [dAssign, lookupA, h]
    · simp [dAssign, lookupA, h2, ih]

theorem lookupA_ddAppend_self {β : Type} (k : String) (v : β)
    (m : List (String × List β)) :
    lookupA (ddAppend k v m) k = some ((lookupA m k).getD [] ++ [v]) := by
  induction m with
  | nil => simp [ddAppend, lookupA]
  | cons kv rest ih =>
    obtain ⟨k', vs⟩ := kv
    by_cases h : k' = k
    · subst h
      simp [ddAppend, lookupA]
    · simp [ddAppend, lookupA, h, ih]

theorem lookupA_ddAppend_ne {β : Type} {k d : String} (v : β)
    (m : List (String × List β)) (h : k ≠ d) :
    lookupA (ddAppend k v m) d = lookupA m d := by
  induction m with
  | nil => simp [ddAppend, lookupA, h]
  | cons kv rest ih =>
    obtain ⟨k', vs⟩ := kv
    by_cases h2 : k' = k
    · subst h2
      simp [ddAppend, lookupA, h, ih]
    · simp [ddAppend, lookupA, h2, ih]

theorem lookupA_mem {β : Type} {m : List (String × β)} {k : String} {v : β}
    (h : lookupA m k = some v) : (k, v) ∈ m := by
  induction m with
  | nil => simp [lookupA] at h
  | cons kv rest ih =>
    obtain ⟨k', v'⟩ := kv
    by_cases h2 : k' = k
    · subst h2
      rw [lookupA, if_pos rfl] at h
      have hv : v' = v := Option.some.inj h
      subst hv
      exact List.mem_cons_self _ _
    · rw [lookupA, if_neg h2] at h
      exact List.mem_cons_of_mem _ (ih h)

theorem lookupA_applyW {β : Type} (m : List (String × β))
    (ws : List (String × β)) (d : String) :
    lookupA (applyW m ws) d =
      match lastW d ws with
      | some v => some v
      | none => lookupA m d := by
  induction ws generalizing m with
  | nil => simp [applyW, lastW]
  | cons w rest ih =>
    show lookupA (applyW (dAssign w.1 w.2 m) rest) d = _
    rw [ih]
    rcases hl : lastW d rest with _ | v
    · simp only [lastW, hl]
      by_cases hw : w.1 = d
      · subst hw
        simp [lookupA_dAssign_self]
      · simp [lookupA_dAssign_ne _ _ hw, hw]
    · simp [lastW, hl]

theorem applyW_append {β : Type} (m : List (String × β))
    (w1 w2 : List (String × β)) :
    applyW m (w1 ++ w2) = applyW (applyW m w1) w2 := by
  simp [applyW, List.foldl_append]

theorem lastW_append {β : Type} (d : String) (w1 w2 : List (String × β)) :
    lastW d (w1 ++ w2) =
      match lastW d w2 with
      | some v => some v
      | none => lastW d w1 := by
  induction w1 with
  | nil =>
    rcases hl : lastW d w2 with _ | v <;> simp [lastW, hl]
  | cons w rest ih =>
    show lastW d (w :: (rest ++ w2)) = _
    rcases hl : lastW d w2 with _ | v
    · simp only [lastW, ih, hl]
    · simp only [lastW, ih, hl]

theorem lastW_eq_none {β : Type} {d : String} {ws : List (String × β)}
    (h : ∀ w ∈ ws, w.1 ≠ d) : lastW d ws = none := by
  induction ws with
  | nil => rfl
  | cons w rest ih =>
    have h1 : w.1 ≠ d := h w (List.mem_cons_self _ _)
    have h2 : lastW d rest = none := ih (fun w hw => h w (List.mem_cons_of_mem _ hw))
    simp [lastW, h2, h1]

/-! ### Grouping (defaultdict fold) lemmas -/

theorem lookupA_ddFold {β : Type} (kvs : List (String × β))
    (acc : List (String × List β)) (k : String) :
    lookupA (ddFold kvs acc) k =
      match lookupA acc k, selOf kvs k with
      | some vs, sel => some (vs ++ sel)
      | none, [] => none
      | none, sel => some sel := by
  induction kvs generalizing acc with
  | nil =>
    rcases h : lookupA acc k with _ | vs <;> simp [ddFold, selOf, h]
  | cons kv rest ih =>
    show lookupA (ddFold rest (ddAppend kv.1 kv.2 acc)) k = _
    rw [ih]
    by_cases hk : kv.1 = k
    · subst hk
      rw [lookupA_ddAppend_self]
      have hsel : selOf (kv :: rest) kv.1 = kv.2 :: selOf rest kv.1 := by
        simp [selOf, List.filter_cons]
      rcases h : lookupA acc kv.1 with _ | vs
      · rcases hs : selOf rest kv.1 with _ | ⟨s, sel⟩ <;> simp [h, hsel, hs]
      · simp [h, hsel]
    · rw [lookupA_ddAppend_ne _ _ hk]
      have hsel : selOf (kv :: rest) k = selOf rest k := by
        simp [selOf, List.filter_cons, hk]
      rw [hsel]

theorem keysOf_ddAppend {β : Type} (k : String) (v : β)
    (m : List (String × List β)) :
    keysOf (ddAppend k v m) =
      if k ∈ keysOf m then keysOf m else keysOf m ++ [k] := by
  induction m with
  | nil => simp [ddAppend, keysOf]
  | cons kv rest ih =>
    obtain ⟨k', vs⟩ := kv
    by_cases h : k' = k
    · subst h
      simp [ddAppend, keysOf]
    · have hne : ¬(k = k') := fun hh => h hh.symm
      simp only [ddAppend, if_neg h, keysOf, List.map_cons]
      rw [show keysOf (ddAppend k v rest) = List.map Prod.fst (ddAppend k v rest) from rfl] at ih
      simp only [keysOf] at ih
      rw [ih]
      by_cases hm : k ∈ List.map Prod.fst rest
      · simp [hm, hne]
      · simp [hm, hne]

theorem nodup_keysOf_ddFold {β : Type} (kvs : List (String × β))
    (acc : List (String × List β)) (h : (keysOf acc).Nodup) :
    (keysOf (ddFold kvs acc)).Nodup := by
  induction kvs generalizing acc with
  | nil => exact h
  | cons kv rest ih =>
    show (keysOf (ddFold rest (ddAppend kv.1 kv.2 acc))).Nodup
    apply ih
    rw [keysOf_ddAppend]
    by_cases hm : kv.1 ∈ keysOf acc
    · simpa [hm] using h
    · simp only [hm, if_false]
      simpa [List.nodup_append] using ⟨h, hm⟩

theorem lookupA_eq_of_mem_nodup {β : Type} {m : List (String × β)}
    {e : String × β} (hm : e ∈ m) (hn : (keysOf m).Nodup) :
    lookupA m e.1 = some e.2 := by
  induction m with
  | nil => simp at hm
  | cons kv rest ih =>
    have hn' : (kv.1 :: keysOf rest).Nodup := hn
    have hcons := List.nodup_cons.mp hn'
    rcases List.mem_cons.mp hm with hme | hme
    · subst hme
      obtain ⟨k', v'⟩ := e
      simp [lookupA]
    · have hkey : e.1 ∈ keysOf rest := List.mem_map_of_mem Prod.fst hme
      have hk : kv.1 ≠ e.1 := fun hh => hcons.1 (hh ▸ hkey)
      obtain ⟨k', v'⟩ := kv
      simp only at hk
      simp [lookupA, hk, ih hme hcons.2]

theorem mem_entry_ddFold {β : Type} {kvs : List (String × β)}
    {e : String × List β} (h : e ∈ ddFold kvs []) :
    e.2 = selOf kvs e.1 ∧ selOf kvs e.1 ≠ [] := by
  have hn : (keysOf (ddFold kvs [])).Nodup := by
    apply nodup_keysOf_ddFold
    simp [keysOf]
  have hl := lookupA_eq_of_mem_nodup h hn
  rw [lookupA_ddFold] at hl
  rcases hs : selOf kvs e.1 with _ | ⟨s, sel⟩
  · simp [lookupA, hs] at hl
  · simp only [lookupA, hs] at hl
    exact ⟨(Option.some.inj hl).symm, by simp⟩

theorem entry_exists_ddFold {β : Type} (kvs : List (String × β)) (k : String)
    (h : selOf kvs k ≠ []) : (k, selOf kvs k) ∈ ddFold kvs [] := by
  apply lookupA_mem
  rw [lookupA_ddFold]
  rcases hs : selOf kvs k with _ | ⟨s, sel⟩
  · exact absurd hs h
  · simp [lookupA, hs]

/-! ### Ordering lemmas for the embedded `sorted` -/

theorem charListLe_total : ∀ a b : List Char,
    charListLe a b = true ∨ charListLe b a = true := by
  intro a
  induction a with
  | nil => intro b; left; rfl
  | cons x xs ih =>
    intro b
    cases b with
    | nil => right; rfl
    | cons y ys =>
      by_cases hxy : x = y
      · subst hxy
        rcases ih ys with h | h
        · left; simpa [charListLe] using h
        · right; simpa [charListLe] using h
      · rcases lt_or_gt_of_ne hxy with h | h
        · left; simp [charListLe, hxy, h]
        · right
          have hyx : y ≠ x := fun hh => hxy hh.symm
          simp [charListLe, hyx, h]

theorem charListLe_trans : ∀ a b c : List Char,
    charListLe a b = true → charListLe b c = true → charListLe a c = true := by
  intro a
  induction a with
  | nil => intro b c _ _; rfl
  | cons x xs ih =>
    intro b c hab hbc
    cases b with
    | nil => simp [charListLe] at hab
    | cons y ys =>
      cases c with
      | nil => simp [charListLe] at hbc
      | cons z zs =>
        by_cases hxy : x = y <;> by_cases hyz : y = z
        · subst hxy; subst hyz
          simp only [charListLe, if_pos rfl] at hab hbc ⊢
          exact ih ys zs hab hbc
        · subst hxy
          simp only [charListLe, if_pos rfl] at hab
          simp only [charListLe, if_neg hyz] at hbc
          simp [charListLe, hyz, hbc]
        · subst hyz
          simp only [charListLe, if_neg hxy] at hab
          simp [charListLe, hxy, hab]
        · simp only [charListLe, if_neg hxy] at hab
          simp only [charListLe, if_neg hyz] at hbc
          have hab' : x < y := of_decide_eq_true hab
          have hbc' : y < z := of_decide_eq_true hbc
          have hxz : x < z := lt_trans hab' hbc'
          simp [charListLe, ne_of_lt hxz, hxz]

theorem charListLe_antisymm : ∀ a b : List Char,
    charListLe a b = true → charListLe b a = true → a = b := by
  intro a
  induction a with
  | nil =>
    intro b _ hba
    cases b with
    | nil => rfl
    | cons y ys => simp [charListLe] at hba
  | cons x xs ih =>
    intro b hab hba
    cases b with
    | nil => simp [charListLe] at hab
    | cons y ys =>
      by_cases hxy : x = y
      · subst hxy
        simp only [charListLe, if_pos rfl] at hab hba
        rw [ih ys hab hba]
      · have hyx : y ≠ x := fun hh => hxy hh.symm
        simp only [charListLe, if_neg hxy] at hab
        simp only [charListLe, if_neg hyx] at hba
        exact absurd (of_decide_eq_true hba) (lt_asymm (of_decide_eq_true hab))

instance : IsTotal String StrLeR :=
  ⟨fun a b => by
    simpa [StrLeR, strLe] using charListLe_total a.toList b.toList⟩

instance : IsTrans String StrLeR :=
  ⟨fun a b c hab hbc => charListLe_trans a.toList b.toList c.toList hab hbc⟩

instance : IsAntisymm String StrLeR :=
  ⟨fun a b hab hba => by
    have hd : a.data = b.data := charListLe_antisymm a.toList b.toList hab hba
    cases a
    cases b
    exact congrArg String.mk (by simpa using hd)⟩

/-- Any two permutation-equal string lists sort to the same list: the
content of the grouper's determinism requirement. -/
theorem pySort_eq_of_perm {l1 l2 : List String} (h : l1.Perm l2) :
    pySort l1 = pySort l2 :=
  List.eq_of_perm_of_sorted
    (((List.perm_insertionSort _ l1).trans h).trans
      (List.perm_insertionSort _ l2).symm)
    (List.sorted_insertionSort _ l1) (List.sorted_insertionSort _ l2)

theorem map_orderedInsert_key {α : Type} (f : α → String) (x : α)
    (l : List α) :
    (List.orderedInsert (fun a b => StrLeR (f a) (f b)) x l).map f =
      List.orderedInsert StrLeR (f x) (l.map f) := by
  induction l with
  | nil => simp [List.orderedInsert]
  | cons y ys ih =>
    by_cases h : StrLeR (f x) (f y)
    · simp [List.orderedInsert, h]
    · simp [List.orderedInsert, h, ih]

theorem map_pySortBy {α : Type} (f : α → String) (l : List α) :
    (pySortBy f l).map f = pySort (l.map f) := by
  induction l with
  | nil => rfl
  | cons x xs ih =>
    show (List.orderedInsert _ x (List.insertionSort _ xs)).map f = _
    rw [map_orderedInsert_key f x (List.insertionSort _ xs)]
    show List.orderedInsert StrLeR (f x)
      ((pySortBy f xs).map f) = _
    rw [ih]
    rfl

/-- Two distinct members force length at least two. -/
theorem two_le_length_of_mem_ne {α : Type} {a b : α} {l : List α}
    (ha : a ∈ l) (hb : b ∈ l) (hne : a ≠ b) : 2 ≤ l.length := by
  induction l with
  | nil => simp at ha
  | cons x xs ih =>
    rcases List.mem_cons.mp ha with h1 | h1
    · rcases List.mem_cons.mp hb with h2 | h2
      · exact absurd (h1.trans h2.symm) hne
      · have := List.length_pos_of_mem h2
        simp only [List.length_cons]
        omega
    · have := List.length_pos_of_mem h1
      simp only [List.length_cons]
      omega

/-! ### Fold-over-filter lemmas -/

theorem foldl_filter_id {α β : Type} (f : β → α → β) (p : α → Bool)
    (hid : ∀ b a, p a = false → f b a = b) :
    ∀ (l : List α) (b : β), (l.filter p).foldl f b = l.foldl f b := by
  intro l
  induction l with
  | nil => intro b; rfl
  | cons x xs ih =>
    intro b
    by_cases h : p x
    · simp [List.filter_cons, h, ih]
    · have h' : p x = false := by simpa using h
      simp [List.filter_cons, h', ih, hid b x h']

theorem foldlM_except_filter_id {α β ε : Type} (f : β → α → Except ε β)
    (p : α → Bool) (hid : ∀ b a, p a = false → f b a = .ok b) :
    ∀ (l : List α) (b : β),
      (l.filter p).foldlM f b = l.foldlM f b := by
  intro l
  induction l with
  | nil => intro b; rfl
  | cons x xs ih =>
    intro b
    by_cases h : p x
    · simp only [List.filter_cons, h, if_true, List.foldlM_cons]
      rcases hfb : f b x with e | v
      · rfl
      · show List.foldlM f v (xs.filter p) = List.foldlM f v xs
        exact ih v
    · have h' : p x = false := by simpa using h
      simp only [List.filter_cons, h', Bool.false_eq_true, if_false,
        List.foldlM_cons, hid b x h']
      show List.foldlM f b (xs.filter p) = List.foldlM f b xs
      exact ih b

/-! ### Canonicalizer (deduplicate_connections) lemmas -/

namespace CorpNap

theorem mem_dedupGoC (groups : List (String × String)) :
    ∀ (conns : List Conn) (seen : List (String × String × String))
      (e : Conn), e ∈ dedupGoC groups seen conns →
      e.source ≠ e.target ∧ ckey e ∉ seen ∧
      ∃ c ∈ conns, e = resolveConn groups c := by
  intro conns
  induction conns with
  | nil =>
    intro seen e h
    simp [dedupGoC] at h
  | cons c rest ih =>
    intro seen e h
    by_cases h1 : resolveG groups c.source = resolveG groups c.target
    · simp only [dedupGoC, if_pos h1] at h
      obtain ⟨hne, hns, c', hc', he⟩ := ih seen e h
      exact ⟨hne, hns, c', List.mem_cons_of_mem _ hc', he⟩
    · simp only [dedupGoC, if_neg h1] at h
      by_cases h2 :
          connKey (resolveG groups c.source) (resolveG groups c.target)
            c.ctype ∈ seen
      · simp only [if_pos h2] at h
        obtain ⟨hne, hns, c', hc', he⟩ := ih seen e h
        exact ⟨hne, hns, c', List.mem_cons_of_mem _ hc', he⟩
      · simp only [if_neg h2] at h
        rcases List.mem_cons.mp h with he | he
        · subst he
          exact ⟨h1, h2, c, List.mem_cons_self _ _, rfl⟩
        · obtain ⟨hne, hns, c', hc', hee⟩ := ih _ e he
          refine ⟨hne, fun hmem => hns (List.mem_cons_of_mem _ hmem),
            c', List.mem_cons_of_mem _ hc', hee⟩

theorem dedupGoC_pairwise (groups : List (String × String)) :
    ∀ (conns : List Conn) (seen : List (String × String × String)),
      (dedupGoC groups seen conns).Pairwise
        (fun e1 e2 => ckey e1 ≠ ckey e2) := by
  intro conns
  induction conns with
  | nil => intro seen; simp [dedupGoC]
  | cons c rest ih =>
    intro seen
    by_cases h1 : resolveG groups c.source = resolveG groups c.target
    · simp only [dedupGoC, if_pos h1]
      exact ih seen
    · simp only [dedupGoC, if_neg h1]
      by_cases h2 :
          connKey (resolveG groups c.source) (resolveG groups c.target)
            c.ctype ∈ seen
      · simp only [if_pos h2]
        exact ih seen
      · simp only [if_neg h2]
        refine List.Pairwise.cons ?_ (ih _)
        intro e he heq
        have hns := (mem_dedupGoC groups rest _ e he).2.1
        exact hns (by rw [← heq]; exact List.mem_cons_self _ _)

theorem dedupGoC_complete (groups : List (String × String)) :
    ∀ (conns : List Conn) (seen : List (String × String × String))
      (c : Conn), c ∈ conns →
      resolveG groups c.source ≠ resolveG groups c.target →
      rkey groups c ∉ seen →
      ∃ e ∈ dedupGoC groups seen conns, ckey e = rkey groups c := by
  intro conns
  induction conns with
  | nil => intro seen c hc; simp at hc
  | cons c0 rest ih =>
    intro seen c hc hne hns
    by_cases h1 : resolveG groups c0.source = resolveG groups c0.target
    · simp only [dedupGoC, if_pos h1]
      rcases List.mem_cons.mp hc with hce | hce
      · subst hce; exact absurd h1 hne
      · exact ih seen c hce hne hns
    · simp only [dedupGoC, if_neg h1]
      by_cases h2 :
          connKey (resolveG groups c0.source) (resolveG groups c0.target)
            c0.ctype ∈ seen
      · simp only [if_pos h2]
        rcases List.mem_cons.mp hc with hce | hce
        · subst hce; exact absurd h2 (by exact hns)
        · exact ih seen c hce hne hns
      · simp only [if_neg h2]
        rcases List.mem_cons.mp hc with hce | hce
        · subst hce
          exact ⟨resolveConn groups c, List.mem_cons_self _ _, rfl⟩
        · by_cases hkey : rkey groups c =
              connKey (resolveG groups c0.source) (resolveG groups c0.target)
                c0.ctype
          · refine ⟨resolveConn groups c0, List.mem_cons_self _ _, ?_⟩
            rw [hkey]; rfl
          · have hns2 : rkey groups c ∉
                connKey (resolveG groups c0.source) (resolveG groups c0.target)
                  c0.ctype :: seen := by
              intro hmem
              rcases List.mem_cons.mp hmem with hh | hh
              · exact hkey hh
              · exact hns hh
            obtain ⟨e, he, hke⟩ := ih _ c hce hne hns2
            exact ⟨e, List.mem_cons_of_mem _ he, hke⟩

/-! ### Extractor (parse_attr_content) lemmas -/

theorem not_tokens_of_deny (t : String) (h : isDeny t = true) :
    startsW "HOSTNAME" t = false ∧ startsW "CUSTOMERLAG" t = false ∧
      startsW "RINGLAG" t = false := by
  have h3 : (startsW "IBGPNEIGH" t = true ∨ startsW "EBGPNEIGH" t = true) ∨
      startsW "RRCLIENTNEIGH" t = true := by
    simpa [isDeny, Bool.or_eq_true] using h
  rcases h3 with (hp | hp) | hp <;>
  · obtain ⟨u, hu⟩ := List.isPrefixOf_iff_prefix.mp hp
    refine ⟨?_, ?_, ?_⟩ <;>
      (show List.isPrefixOf _ _ = false; rw [← hu]; rfl)

theorem hostStep_deny (st : List String × Option String) (raw : String)
    (h : isDeny (pyStrip raw) = true) : hostStep st raw = .ok st := by
  have hh := (not_tokens_of_deny _ h).1
  simp [hostStep, hh]

theorem customerStep_deny (cur : Option String)
    (st : List String × List Conn) (raw : String)
    (h : isDeny (pyStrip raw) = true) : customerStep cur st raw = st := by
  have hh := (not_tokens_of_deny _ h).2.1
  simp [customerStep, hh]

theorem ringStep_deny (cur : Option String) (st : List String × List Conn)
    (raw : String) (h : isDeny (pyStrip raw) = true) :
    ringStep cur st raw = st := by
  have hh := (not_tokens_of_deny _ h).2.2
  simp [ringStep, hh]

theorem peerStep_deny (cur : Option String) (st : List String × List Conn)
    (raw : String) (h : isDeny (pyStrip raw) = true) :
    peerStep cur st raw = st := by
  simp [peerStep, h]

/-- The final `current_device` of the hostname pass is the device named
by the last hostname-declaration line (falling back to the initial
state). -/
theorem hostFold_last :
    ∀ (lines : List String) (st : List String × Option String)
      (d1 : List String) (c1 : Option String),
      lines.foldlM hostStep st = .ok (d1, c1) →
      c1 = orElseO (lines.filterMap hostnameOf).getLast? st.2 := by
  intro lines
  induction lines with
  | nil =>
    intro st d1 c1 h
    simp only [List.foldlM_nil] at h
    have hst : st = (d1, c1) := Except.ok.inj h
    rw [hst]
    simp [List.filterMap_nil, orElseO]
  | cons l rest ih =>
    intro st d1 c1 h
    by_cases hl : startsW "HOSTNAME" (pyStrip l)
    · rcases hw : (wordsOf (pyStrip l))[1]? with _ | d
      · have hstep : hostStep st l = .error () := by
          simp [hostStep, hl, hw]
        rw [List.foldlM_cons, hstep] at h
        exact Except.noConfusion h
      · have hstep : hostStep st l = .ok (insertOnce d st.1, some d) := by
          simp [hostStep, hl, hw]
        rw [List.foldlM_cons, hstep] at h
        have hrec := ih _ _ _ h
        have hf : (l :: rest).filterMap hostnameOf =
            d :: rest.filterMap hostnameOf := by
          simp [List.filterMap_cons, hostnameOf, hl, hw]
        rw [hf, List.getLast?_cons]
        rcases hlast : (rest.filterMap hostnameOf).getLast? with _ | x
        · simpa [hlast, orElseO] using hrec
        · simpa [hlast, orElseO] using hrec
    · have hstep : hostStep st l = .ok st := by
        simp [hostStep, hl]
      rw [List.foldlM_cons, hstep] at h
      have hrec := ih _ _ _ h
      have hf : (l :: rest).filterMap hostnameOf =
          rest.filterMap hostnameOf := by
        simp [List.filterMap_cons, hostnameOf, hl]
      rw [hf]
      exact hrec

/-- Every connection appended by the CUSTOMERLAG pass carries the fixed
`current_device` as its source. -/
theorem customerFold_src (cur : Option String) :
    ∀ (lines : List String) (st : List String × List Conn) (c : Conn),
      c ∈ (lines.foldl (customerStep cur) st).2 →
      c ∈ st.2 ∨ some c.source = cur := by
  intro lines
  induction lines with
  | nil => intro st c h; exact Or.inl h
  | cons l rest ih =>
    intro st c h
    rw [List.foldl_cons] at h
    rcases ih _ c h with hin | hsrc
    · by_cases h1 : (startsW "CUSTOMERLAG" (pyStrip l) &&
          containsSub "DESC" (pyStrip l)) = true
      · rcases hcur : cur with _ | dev
        · left
          simpa [customerStep, h1, hcur] using hin
        · have hsnd : (customerStep cur st l).2 =
              st.2 ++ [⟨dev, ((wordsOf (pyStrip l)).getLast?).getD "",
                "customer"⟩] := by
            simp [customerStep, h1, hcur]
          rw [hsnd] at hin
          rcases List.mem_append.mp hin with hin2 | hin2
          · exact Or.inl hin2
          · right
            rw [List.mem_singleton.mp hin2]
      · left
        simpa [customerStep, h1] using hin
    · exact Or.inr hsrc

/-- Every connection appended by the RINGLAG pass carries the fixed
`current_device` as its source. -/
theorem ringFold_src (cur : Option String) :
    ∀ (lines : List String) (st : List String × List Conn) (c : Conn),
      c ∈ (lines.foldl (ringStep cur) st).2 →
      c ∈ st.2 ∨ some c.source = cur := by
  intro lines
  induction lines with
  | nil => intro st c h; exact Or.inl h
  | cons l rest ih =>
    intro st c h
    rw [List.foldl_cons] at h
    rcases ih _ c h with hin | hsrc
    · by_cases h1 : (startsW "RINGLAG" (pyStrip l) &&
          containsSub "DESC" (pyStrip l)) = true
      · rcases hcur : cur with _ | dev
        · left
          simpa [ringStep, h1, hcur] using hin
        · have hsnd : (ringStep cur st l).2 =
              st.2 ++ [⟨dev, ((wordsOf (pyStrip l)).getLast?).getD "",
                "ring"⟩] := by
            simp [ringStep, h1, hcur]
          rw [hsnd] at hin
          rcases List.mem_append.mp hin with hin2 | hin2
          · exact Or.inl hin2
          · right
            rw [List.mem_singleton.mp hin2]
      · left
        simpa [ringStep, h1] using hin
    · exact Or.inr hsrc

/-- Every connection appended by the PEER pass carries the fixed
`current_device` as its source. -/
theorem peerFold_src (cur : Option String) :
    ∀ (lines : List String) (st : List String × List Conn) (c : Conn),
      c ∈ (lines.foldl (peerStep cur) st).2 →
      c ∈ st.2 ∨ some c.source = cur := by
  intro lines
  induction lines with
  | nil => intro st c h; exact Or.inl h
  | cons l rest ih =>
    intro st c h
    rw [List.foldl_cons] at h
    rcases ih _ c h with hin | hsrc
    · by_cases h1 : (containsSub "PEER" (pyStrip l) &&
          !(isDeny (pyStrip l))) = true
      · by_cases h2 : 3 ≤ (wordsOf (pyStrip l)).length
        · rcases hcur : cur with _ | dev
          · left
            simpa [peerStep, h1, h2, hcur] using hin
          · have hsnd : (peerStep cur st l).2 = st.2 ++
                [⟨dev, ((wordsOf (pyStrip l)).getLast?).getD "",
                  if containsSub "FWPEER" (pyStrip l) then "nap_firewall"
                  else "nap_inter_region"⟩] := by
              simp [peerStep, h1, h2, hcur]
            rw [hsnd] at hin
            rcases List.mem_append.mp hin with hin2 | hin2
            · exact Or.inl hin2
            · right
              rw [List.mem_singleton.mp hin2]
        · left
          simpa [peerStep, h1, h2] using hin
      · left
        simpa [peerStep, h1] using hin
    · exact Or.inr hsrc

end CorpNap

/-! ### Site-Filter (parse_brick_content) lemmas -/

theorem mem_insertOnce {x d : String} {l : List String}
    (h : d ∈ insertOnce x l) : d ∈ l ∨ d = x := by
  by_cases hx : x ∈ l
  · left; simpa [insertOnce, hx] using h
  · rw [insertOnce, if_neg hx] at h
    rcases List.mem_append.mp h with h | h
    · exact Or.inl h
    · exact Or.inr (List.mem_singleton.mp h)

namespace UmnProd

theorem step_preserves_inv (az source : String)
    (st : List String × List Conn) (iface : String × Option String)
    (hP : FilterInv az st) :
    FilterInv az (brickIfaceStep az source st iface) := by
  rcases iface with ⟨iname, rem⟩
  rcases rem with _ | tgt
  · exact hP
  · by_cases he : tgt = ""
    · simpa [brickIfaceStep, he] using hP
    · by_cases hc : (startsW az source || startsW az tgt) = true
      · have hstep : brickIfaceStep az source st (iname, some tgt) =
            (insertOnce tgt (insertOnce source st.1),
              st.2 ++ [⟨source, tgt, "physical"⟩]) := by
          simp [brickIfaceStep, he, hc]
        rw [hstep]
        obtain ⟨h1, h2⟩ := hP
        constructor
        · intro c hcm
          rcases List.mem_append.mp hcm with hm | hm
          · exact h1 c hm
          · rw [List.mem_singleton.mp hm]
            simpa [Bool.or_eq_true] using hc
        · intro d hd hext
          rcases mem_insertOnce hd with hd2 | hd2
          · rcases mem_insertOnce hd2 with hd3 | hd3
            · obtain ⟨c, hcm, hcp⟩ := h2 d hd3 hext
              exact ⟨c, List.mem_append_left _ hcm, hcp⟩
            · subst hd3
              have htgt : startsW az tgt = true := by
                rcases Bool.or_eq_true _ _ |>.mp hc with hh | hh
                · exact absurd hh (by simp [hext])
                · exact hh
              refine ⟨⟨d, tgt, "physical"⟩,
                List.mem_append_right _ (List.mem_singleton.mpr rfl),
                Or.inl ⟨rfl, htgt⟩⟩
          · subst hd2
            have hsrc : startsW az source = true := by
              rcases Bool.or_eq_true _ _ |>.mp hc with hh | hh
              · exact hh
              · exact absurd hh (by simp [hext])
            refine ⟨⟨source, d, "physical"⟩,
              List.mem_append_right _ (List.mem_singleton.mpr rfl),
              Or.inr ⟨rfl, hsrc⟩⟩
      · simpa [brickIfaceStep, he, hc] using hP

theorem inner_fold_preserves_inv (az source : String) :
    ∀ (ifaces : List (String × Option String))
      (st : List String × List Conn), FilterInv az st →
      FilterInv az (ifaces.foldl (brickIfaceStep az source) st) := by
  intro ifaces
  induction ifaces with
  | nil => exact fun st h => h
  | cons i rest ih =>
    intro st h
    rw [List.foldl_cons]
    exact ih _ (step_preserves_inv az source st i h)

theorem outer_fold_preserves_inv (az : String) :
    ∀ (nodes : List (String × List (String × Option String)))
      (st : List String × List Conn), FilterInv az st →
      FilterInv az (nodes.foldl
        (fun st e => e.2.foldl (brickIfaceStep az e.1) st) st) := by
  intro nodes
  induction nodes with
  | nil => exact fun st h => h
  | cons n rest ih =>
    intro st h
    rw [List.foldl_cons]
    exact ih _ (inner_fold_preserves_inv az n.1 n.2 st h)

end UmnProd

/-! ### Emitter (dsn generate_drawio_xml) lemmas -/

namespace Dsn

theorem emitConns_pairs (cells : List (String × Nat)) :
    ∀ (conns : List Conn) (cid : Nat),
      (emitConns cells cid conns).map (fun k => (k.source, k.target)) =
        conns.filterMap (fun c => (lookupA cells c.source).bind
          (fun s => (lookupA cells c.target).map (fun t => (s, t)))) := by
  intro conns
  induction conns with
  | nil => intro cid; rfl
  | cons c rest ih =>
    intro cid
    rcases hs : lookupA cells c.source with _ | s <;>
      rcases ht : lookupA cells c.target with _ | t <;>
        simp [emitConns, hs, ht, List.filterMap_cons, ih]

theorem placeCells_lookup_mem (site : String) :
    ∀ (devs : List String) (cid x y : Nat) (d : String) (i : Nat),
      lookupA (placeCells site cid x y devs).2 d = some i →
      i ∈ (placeCells site cid x y devs).1.map Shape.id := by
  intro devs
  induction devs with
  | nil => intro cid x y d i h; simp [placeCells, lookupA] at h
  | cons d0 rest ih =>
    intro cid x y d i h
    rw [placeCells] at h ⊢
    simp only [lookupA] at h
    by_cases hd : d0 = d
    · rw [if_pos hd] at h
      simp [Option.some.inj h]
    · rw [if_neg hd] at h
      simp only [List.map_cons, List.mem_cons]
      exact Or.inr (ih _ _ _ d i h)

theorem placeCells_lookup_isSome (site : String) :
    ∀ (devs : List String) (cid x y : Nat) (d : String),
      (lookupA (placeCells site cid x y devs).2 d).isSome = true ↔
        d ∈ devs := by
  intro devs
  induction devs with
  | nil =>
    intro cid x y d
    simp [placeCells, lookupA]
  | cons d0 rest ih =>
    intro cid x y d
    rw [placeCells]
    simp only [lookupA]
    by_cases hd : d0 = d
    · subst hd
      simp
    · rw [if_neg hd]
      rw [List.mem_cons]
      have hne : ¬(d = d0) := fun hh => hd hh.symm
      simp only [hne, false_or]
      exact ih _ _ _ d

end Dsn

/-! ### Site-pattern (regex prefix match) lemmas -/

theorem takeWhile_append_all {p : Char → Bool} {a : List Char}
    (ha : ∀ x ∈ a, p x = true) (b : List Char) :
    (a ++ b).takeWhile p = a ++ b.takeWhile p := by
  induction a with
  | nil => rfl
  | cons x xs ih =>
    have hx : p x = true := ha x (List.mem_cons_self _ _)
    have hxs : ∀ x ∈ xs, p x = true :=
      fun y hy => ha y (List.mem_cons_of_mem _ hy)
    simp [List.takeWhile_cons, hx, ih hxs]

theorem dropWhile_append_all {p : Char → Bool} {a : List Char}
    (ha : ∀ x ∈ a, p x = true) (b : List Char) :
    (a ++ b).dropWhile p = b.dropWhile p := by
  induction a with
  | nil => rfl
  | cons x xs ih =>
    have hx : p x = true := ha x (List.mem_cons_self _ _)
    have hxs : ∀ x ∈ xs, p x = true :=
      fun y hy => ha y (List.mem_cons_of_mem _ hy)
    simp [List.dropWhile_cons, hx, ih hxs]

theorem digit_not_lowerAZ {c : Char} (h : c.isDigit = true) :
    isLowerAZ c = false := by
  simp only [Char.isDigit] at h
  simp only [isLowerAZ]
  have h1 : c ≤ '9' := by
    rcases Bool.and_eq_true _ _ |>.mp h with ⟨_, h2⟩
    exact of_decide_eq_true h2
  have h2 : ¬('a' ≤ c) := by
    intro hc
    have := le_trans hc h1
    exact absurd this (by decide)
  simp [h2]

theorem reMatchSite_isSome_iff (site : String) :
    (UmnEc2.reMatchSite site).isSome = true ↔ SitePattern site := by
  constructor
  · intro h
    rw [UmnEc2.reMatchSite] at h
    rcases ha : site.toList.takeWhile isLowerAZ with _ | ⟨a0, a1⟩
    · rw [ha] at h; simp at h
    · rcases hb : (site.toList.dropWhile isLowerAZ).takeWhile Char.isDigit
        with _ | ⟨b0, b1⟩
      · rw [ha, hb] at h; simp at h
      · rcases hr2 : (site.toList.dropWhile isLowerAZ).dropWhile Char.isDigit
          with _ | ⟨c0, r3⟩
        · rw [ha, hb, hr2] at h; simp at h
        · rw [ha, hb, hr2] at h
          by_cases hc0 : c0 = '-'
          · subst hc0
            rcases hcw : r3.takeWhile Char.isDigit with _ | ⟨d0, d1⟩
            · simp [hcw] at h
            · refine ⟨a0 :: a1, b0 :: b1, d0 :: d1,
                r3.dropWhile Char.isDigit, ?_, by simp, by simp, by simp,
                ?_, ?_, ?_⟩
              · calc site.toList
                    = site.toList.takeWhile isLowerAZ ++
                      site.toList.dropWhile isLowerAZ :=
                      (List.takeWhile_append_dropWhile _ _).symm
                  _ = (a0 :: a1) ++
                      ((site.toList.dropWhile isLowerAZ).takeWhile Char.isDigit
                        ++ (site.toList.dropWhile isLowerAZ).dropWhile
                          Char.isDigit) := by
                      rw [ha, List.takeWhile_append_dropWhile]
                  _ = (a0 :: a1) ++ (b0 :: b1) ++ '-' ::
                      (r3.takeWhile Char.isDigit ++
                        r3.dropWhile Char.isDigit) := by
                      rw [hb, hr2, List.takeWhile_append_dropWhile]
                      simp [List.append_assoc]
                  _ = (a0 :: a1) ++ (b0 :: b1) ++ '-' ::
                      (d0 :: d1) ++ r3.dropWhile Char.isDigit := by
                      rw [hcw]
                      simp [List.cons_append, List.append_assoc]
              · intro ch hch
                have hmem : ch ∈ site.toList.takeWhile isLowerAZ := by
                  rw [ha]; exact hch
                exact List.mem_takeWhile_imp hmem
              · intro ch hch
                have hmem : ch ∈
                    (site.toList.dropWhile isLowerAZ).takeWhile Char.isDigit := by
                  rw [hb]; exact hch
                exact List.mem_takeWhile_imp hmem
              · intro ch hch
                have hmem : ch ∈ r3.takeWhile Char.isDigit := by
                  rw [hcw]; exact hch
                exact List.mem_takeWhile_imp hmem
          · simp [hc0] at h
  · rintro ⟨a, b, c, r, hdec, ha, hb, hc, hla, hdb, hdc⟩
    rw [UmnEc2.reMatchSite]
    have hta : site.toList.takeWhile isLowerAZ = a := by
      rw [hdec]
      rw [show a ++ b ++ '-' :: c ++ r = a ++ (b ++ '-' :: c ++ r) by
        simp [List.append_assoc]]
      rw [takeWhile_append_all hla]
      rcases b with _ | ⟨bh, bt⟩
      · exact absurd rfl hb
      · have hbl : isLowerAZ bh = false :=
          digit_not_lowerAZ (hdb bh (List.mem_cons_self _ _))
        simp [List.takeWhile_cons, hbl]
    have htr : site.toList.dropWhile isLowerAZ = b ++ '-' :: c ++ r := by
      rw [hdec]
      rw [show a ++ b ++ '-' :: c ++ r = a ++ (b ++ '-' :: c ++ r) by
        simp [List.append_assoc]]
      rw [dropWhile_append_all hla]
      rcases b with _ | ⟨bh, bt⟩
      · exact absurd rfl hb
      · have hbl : isLowerAZ bh = false :=
          digit_not_lowerAZ (hdb bh (List.mem_cons_self _ _))
        simp [List.dropWhile_cons, hbl]
    have htb : (b ++ '-' :: c ++ r).takeWhile Char.isDigit = b := by
      rw [show b ++ '-' :: c ++ r = b ++ ('-' :: (c ++ r)) by
        simp [List.append_assoc]]
      rw [takeWhile_append_all hdb]
      simp [List.takeWhile_cons, show ('-').isDigit = false from rfl]
    have htb2 : (b ++ '-' :: c ++ r).dropWhile Char.isDigit =
        '-' :: (c ++ r) := by
      rw [show b ++ '-' :: c ++ r = b ++ ('-' :: (c ++ r)) by
        simp [List.append_assoc]]
      rw [dropWhile_append_all hdb]
      simp [List.dropWhile_cons, show ('-').isDigit = false from rfl]
    have htc : (c ++ r).takeWhile Char.isDigit =
        c ++ r.takeWhile Char.isDigit := takeWhile_append_all hdc r
    rcases hae : a with _ | ⟨a0, a1⟩
    · exact absurd (hae ▸ ha) (by simp)
    · rcases hbe : b with _ | ⟨b0, b1⟩
      · exact absurd (hbe ▸ hb) (by simp)
      · rcases hce : c with _ | ⟨c0, c1⟩
        · exact absurd (hce ▸ hc) (by simp)
        · subst hae
          subst hbe
          subst hce
          simp only [List.cons_append] at htc
          rw [hta, htr, htb, htb2]
          simp [htc]

/-! ### Write-trace lemmas for the grouping phase 2 -/

theorem lastW_all_eq {β : Type} {ws : List (String × β)} {v : β} {d : String}
    (hex : ∃ w ∈ ws, w.1 = d) (hall : ∀ w ∈ ws, w.1 = d → w.2 = v) :
    lastW d ws = some v := by
  induction ws with
  | nil => obtain ⟨w, hw, _⟩ := hex; simp at hw
  | cons w rest ih =>
    by_cases hr : ∃ w2 ∈ rest, w2.1 = d
    · have : lastW d rest = some v :=
        ih hr (fun w2 hw2 => hall w2 (List.mem_cons_of_mem _ hw2))
      simp [lastW, this]
    · have hnone : lastW d rest = none := by
        apply lastW_eq_none
        intro w2 hw2 hd
        exact hr ⟨w2, hw2, hd⟩
    -- the witness must be the head
      obtain ⟨w0, hw0, hd0⟩ := hex
      rcases List.mem_cons.mp hw0 with hw0e | hw0e
      · subst hw0e
        have hv := hall w0 (List.mem_cons_self _ _) hd0
        simp [lastW, hnone, hd0, hv]
      · exact absurd ⟨w0, hw0e, hd0⟩ hr

theorem lastW_catMap_none {α β : Type} {f : α → List (String × β)}
    {d : String} :
    ∀ {l : List α}, (∀ e ∈ l, lastW d (f e) = none) →
      lastW d (catMap f l) = none := by
  intro l
  induction l with
  | nil => intro _; rfl
  | cons e rest ih =>
    intro h
    show lastW d (f e ++ catMap f rest) = none
    rw [lastW_append]
    rw [ih (fun e2 he2 => h e2 (List.mem_cons_of_mem _ he2))]
    exact h e (List.mem_cons_self _ _)

theorem lastW_catMap_single {α : Type} [DecidableEq α] {β : Type}
    {f : α → List (String × β)} {d : String} :
    ∀ {l : List α} {e0 : α}, e0 ∈ l →
      (∀ e ∈ l, e ≠ e0 → lastW d (f e) = none) →
      lastW d (catMap f l) = lastW d (f e0) := by
  intro l
  induction l with
  | nil => intro e0 h; simp at h
  | cons e rest ih =>
    intro e0 hmem hother
    show lastW d (f e ++ catMap f rest) = lastW d (f e0)
    rw [lastW_append]
    by_cases hr : e0 ∈ rest
    · rw [ih hr (fun e2 he2 => hother e2 (List.mem_cons_of_mem _ he2))]
      rcases hv : lastW d (f e0) with _ | v
      · by_cases hee : e = e0
        · rw [hee, hv]
        · rw [hother e (List.mem_cons_self _ _) hee]
      · rfl
    · have hee : e = e0 := by
        rcases List.mem_cons.mp hmem with hh | hh
        · exact hh.symm
        · exact absurd hh hr
      subst hee
      have hnone : lastW d (catMap f rest) = none := by
        apply lastW_catMap_none
        intro e2 he2
        have hne : e2 ≠ e := fun hh => hr (hh ▸ he2)
        exact hother e2 (List.mem_cons_of_mem _ he2) hne
      rw [hnone]

theorem selOf_map_fn {α β : Type} (k : α → String) (v : α → β)
    (key : String) :
    ∀ (l : List α), selOf (l.map (fun d => (k d, v d))) key =
      (l.filter (fun d => k d = key)).map v := by
  intro l
  induction l with
  | nil => rfl
  | cons d rest ih =>
    by_cases hk : k d = key
    · simp [selOf, List.filter_cons, hk] at ih ⊢
      exact ih
    · simp [selOf, List.filter_cons, hk] at ih ⊢
      exact ih

/-! ### dsn group_devices lemmas -/

namespace Dsn

theorem groupPhase1_eq_ddFold (ds : List String)
    (hall : ∀ d ∈ ds, (parseRN d).isSome = true) :
    groupPhase1 ds = ddFold (kvsOf ds) [] := by
  suffices h : ∀ (acc : List (String × List (String × Option String))),
      ds.foldl
        (fun acc d =>
          match parseRN d with
          | some (b, n) => ddAppend b (d, some n) acc
          | none => dAssign d [(d, (none : Option String))] acc)
        acc = ddFold (kvsOf ds) acc by
    exact h []
  induction ds with
  | nil => intro acc; rfl
  | cons d rest ih =>
    intro acc
    have hd : (parseRN d).isSome = true := hall d (List.mem_cons_self _ _)
    rcases hp : parseRN d with _ | ⟨b, n⟩
    · rw [hp] at hd; simp at hd
    · have hrest : ∀ d2 ∈ rest, (parseRN d2).isSome = true :=
        fun d2 h2 => hall d2 (List.mem_cons_of_mem _ h2)
      have hkey : keyOfDev d = b := by simp [keyOfDev, hp]
      have hval : valOfDev d = (d, some n) := by simp [valOfDev, hp]
      rw [List.foldl_cons, hp]
      have ihr := ih hrest (ddAppend b (d, some n) acc)
      rw [ihr]
      show ddFold (kvsOf rest) (ddAppend b (d, some n) acc) =
        ddFold (kvsOf (d :: rest)) acc
      rw [show kvsOf (d :: rest) = (b, (d, some n)) :: kvsOf rest by
        simp [kvsOf, hkey, hval]]
      rfl

theorem members_map_num (ds : List String) (b : String)
    (hall : ∀ d ∈ ds, (parseRN d).isSome = true) :
    (selOf (kvsOf ds) b).map (fun m => m.2.getD "") = numsOf ds b := by
  rw [show selOf (kvsOf ds) b =
    (ds.filter (fun d => keyOfDev d = b)).map valOfDev from
    selOf_map_fn keyOfDev valOfDev b ds]
  induction ds with
  | nil => rfl
  | cons d rest ih =>
    have hd : (parseRN d).isSome = true := hall d (List.mem_cons_self _ _)
    have hrest : ∀ d2 ∈ rest, (parseRN d2).isSome = true :=
      fun d2 h2 => hall d2 (List.mem_cons_of_mem _ h2)
    rcases hp : parseRN d with _ | ⟨b2, n⟩
    · rw [hp] at hd; simp at hd
    · have hkey : keyOfDev d = b2 := by simp [keyOfDev, hp]
      by_cases hb : b2 = b
      · subst hb
        rw [show numsOf (d :: rest) b2 = n :: numsOf rest b2 by
          simp [numsOf, List.filterMap_cons, hp]]
        have hcnd : decide (keyOfDev d = b2) = true := by simp [hkey]
        rw [List.filter_cons, if_pos hcnd]
        simp only [List.map_cons]
        rw [show valOfDev d = (d, some n) by simp [valOfDev, hp]]
        simp only [Option.getD_some]
        rw [ih hrest]
      · rw [show numsOf (d :: rest) b = numsOf rest b by
          simp [numsOf, List.filterMap_cons, hp, hb]]
        have hcnd : ¬(decide (keyOfDev d = b) = true) := by simp [hkey, hb]
        rw [List.filter_cons, if_neg hcnd]
        rw [ih hrest]

theorem mem_members (ds : List String) {d b n : String} (hd : d ∈ ds)
    (hp : parseRN d = some (b, n)) : (d, some n) ∈ selOf (kvsOf ds) b := by
  rw [show selOf (kvsOf ds) b =
    (ds.filter (fun d => keyOfDev d = b)).map valOfDev from
    selOf_map_fn keyOfDev valOfDev b ds]
  have hkey : keyOfDev d = b := by simp [keyOfDev, hp]
  have hval : valOfDev d = (d, some n) := by simp [valOfDev, hp]
  rw [← hval]
  exact List.mem_map_of_mem _ (List.mem_filter.mpr ⟨hd, by simp [hkey]⟩)

theorem members_origin {ds : List String} {b : String}
    {m : String × Option String} (hm : m ∈ selOf (kvsOf ds) b) :
    ∃ d2 ∈ ds, keyOfDev d2 = b ∧ m = valOfDev d2 := by
  rw [show selOf (kvsOf ds) b =
    (ds.filter (fun d => keyOfDev d = b)).map valOfDev from
    selOf_map_fn keyOfDev valOfDev b ds] at hm
  obtain ⟨d2, hd2, hval⟩ := List.mem_map.mp hm
  obtain ⟨hd2m, hkey⟩ := List.mem_filter.mp hd2
  exact ⟨d2, hd2m, by simpa using hkey, hval.symm⟩

theorem groupPhase2_eq_applyW :
    ∀ (entries : List (String × List (String × Option String))),
      groupPhase2 entries = applyW [] (catMap writesOf entries) := by
  suffices h : ∀ entries acc,
      entries.foldl
        (fun acc e =>
          let members := e.2
          if 1 < members.length then
            let sorted := pySortBy
              (fun m : String × Option String => m.2.getD "") members
            let nums := joinStr (sorted.map (fun m => m.2.getD ""))
            let gname := e.1 ++ "-r[" ++ nums ++ "]"
            sorted.foldl (fun a m => dAssign m.1 gname a) acc
          else
            match members with
            | [m] => dAssign m.1 m.1 acc
            | _ => acc)
        acc = applyW acc (catMap writesOf entries) by
    intro entries
    exact h entries []
  intro entries
  induction entries with
  | nil => intro acc; rfl
  | cons e rest ih =>
    intro acc
    rw [List.foldl_cons]
    have hstep : (let members := e.2
        if 1 < members.length then
          let sorted := pySortBy
            (fun m : String × Option String => m.2.getD "") members
          let nums := joinStr (sorted.map (fun m => m.2.getD ""))
          let gname := e.1 ++ "-r[" ++ nums ++ "]"
          sorted.foldl (fun a m => dAssign m.1 gname a) acc
        else
          match members with
          | [m] => dAssign m.1 m.1 acc
          | _ => acc) = applyW acc (writesOf e) := by
      by_cases hlen : 1 < e.2.length
      · simp only [hlen, if_pos, writesOf, applyW, List.foldl_map]
      · simp only [hlen, if_neg, writesOf]
        rcases e2 : e.2 with _ | ⟨m, rest2⟩
        · simp [applyW]
        · rcases rest2 with _ | ⟨m2, rest3⟩
          · simp [applyW]
          · rw [e2] at hlen
            simp at hlen
    rw [hstep, ih]
    rw [show catMap writesOf (e :: rest) = writesOf e ++ catMap writesOf rest
      from rfl]
    rw [applyW_append]

theorem writesOf_fst {e : String × List (String × Option String)}
    {w : String × String} (hw : w ∈ writesOf e) : ∃ m ∈ e.2, w.1 = m.1 := by
  rw [writesOf] at hw
  by_cases hlen : 1 < e.2.length
  · rw [if_pos hlen] at hw
    obtain ⟨m, hm, hwm⟩ := List.mem_map.mp hw
    have hmm : m ∈ e.2 :=
      (List.perm_insertionSort _ e.2).mem_iff.mp hm
    exact ⟨m, hmm, by rw [← hwm]⟩
  · rw [if_neg hlen] at hw
    rcases e2 : e.2 with _ | ⟨m, rest2⟩
    · rw [e2] at hw; simp at hw
    · rcases rest2 with _ | ⟨m2, rest3⟩
      · rw [e2] at hw
        simp only [List.mem_singleton] at hw
        exact ⟨m, by simp [e2], by rw [hw]⟩
      · rw [e2] at hlen
        simp at hlen

/-- The display name dsn's `group_devices` assigns to a matching device:
singleton bases keep the bare name, multi-member bases get the joined,
string-sorted suffix list without separators. -/
theorem lookup_groupDevices (ds : List String)
    (hall : ∀ d ∈ ds, (parseRN d).isSome = true) (d b n : String)
    (hd : d ∈ ds) (hp : parseRN d = some (b, n)) :
    lookupA (groupDevices ds) d =
      some (if (numsOf ds b).length ≤ 1 then d
        else b ++ "-r[" ++ joinStr (pySort (numsOf ds b)) ++ "]") := by
  rw [groupDevices, groupPhase1_eq_ddFold ds hall, groupPhase2_eq_applyW,
    lookupA_applyW]
  have hmem := mem_members ds hd hp
  have hkeyd : keyOfDev d = b := by simp [keyOfDev, hp]
  have hsel : selOf (kvsOf ds) b ≠ [] := by
    intro hnil
    rw [hnil] at hmem
    simp at hmem
  have he0 : ((b, selOf (kvsOf ds) b) :
      String × List (String × Option String)) ∈ ddFold (kvsOf ds) [] :=
    entry_exists_ddFold _ _ hsel
  have hother : ∀ e ∈ ddFold (kvsOf ds) [],
      e ≠ (b, selOf (kvsOf ds) b) → lastW d (writesOf e) = none := by
    intro e he hne
    apply lastW_eq_none
    intro w hw hwd
    obtain ⟨m, hme, hwm⟩ := writesOf_fst hw
    have hesel := (mem_entry_ddFold he).1
    rw [hesel] at hme
    obtain ⟨d2, _, hkey2, hval2⟩ := members_origin hme
    have hd2 : d2 = d := by
      have : m.1 = d2 := by rw [hval2]; rfl
      rw [← hwd, hwm, this]
    rw [hd2] at hkey2
    rw [hkeyd] at hkey2
    apply hne
    have : e = (e.1, e.2) := rfl
    rw [this, hesel, hkey2]
  rw [lastW_catMap_single he0 hother]
  -- now compute the write of the entry for base b
  have hlen : (selOf (kvsOf ds) b).length = (numsOf ds b).length := by
    rw [← members_map_num ds b hall, List.length_map]
  have hnums : ((pySortBy (fun m : String × Option String => m.2.getD "")
      (selOf (kvsOf ds) b)).map (fun m => m.2.getD "")) =
      pySort (numsOf ds b) := by
    rw [map_pySortBy, members_map_num ds b hall]
  by_cases hmulti : 1 < (selOf (kvsOf ds) b).length
  · have hcond : ¬((numsOf ds b).length ≤ 1) := by omega
    rw [if_neg hcond]
    have hlast : lastW d
        (writesOf ((b, selOf (kvsOf ds) b) :
          String × List (String × Option String))) =
        some (b ++ "-r[" ++ joinStr (pySort (numsOf ds b)) ++ "]") := by
      rw [writesOf]
      rw [if_pos hmulti]
      dsimp only
      rw [hnums]
      apply lastW_all_eq
      · have hsort : ((d, some n) : String × Option String) ∈
            pySortBy (fun m : String × Option String => m.2.getD "")
              (selOf (kvsOf ds) b) :=
          ((List.perm_insertionSort _ _).mem_iff).mpr hmem
        exact ⟨_, List.mem_map_of_mem _ hsort, rfl⟩
      · intro w hw _
        obtain ⟨m, _, hwm⟩ := List.mem_map.mp hw
        rw [← hwm]
    rw [hlast]
  · have hcond : (numsOf ds b).length ≤ 1 := by omega
    rw [if_pos hcond]
    have hone : selOf (kvsOf ds) b = [(d, some n)] := by
      rcases hs : selOf (kvsOf ds) b with _ | ⟨m, rest2⟩
      · exact absurd hs hsel
      · rcases rest2 with _ | ⟨m2, rest3⟩
        · rw [hs] at hmem
          rw [← List.mem_singleton.mp hmem]
        · rw [hs] at hmulti
          simp at hmulti
    have hlast : lastW d
        (writesOf ((b, selOf (kvsOf ds) b) :
          String × List (String × Option String))) = some d := by
      rw [writesOf]
      rw [hone]
      dsimp only
      simp [lastW]
    rw [hlast]

end Dsn

/-! ### umn_prod group_devices lemmas -/

namespace UmnProd

theorem groupPhase1_eq_ddFold_rv (ds : List String)
    (hall : ∀ d ∈ ds, (parseRV d).isSome = true) :
    groupPhase1 ds = ddFold (kvsOf ds) [] := by
  suffices h : ∀ (acc : List (String × List (String × Option (Char × String)))),
      ds.foldl
        (fun acc d =>
          match parseRV d with
          | some (b, k, n) => ddAppend b (d, some (k, n)) acc
          | none => dAssign d [(d, (none : Option (Char × String)))] acc)
        acc = ddFold (kvsOf ds) acc by
    exact h []
  induction ds with
  | nil => intro acc; rfl
  | cons d rest ih =>
    intro acc
    have hd : (parseRV d).isSome = true := hall d (List.mem_cons_self _ _)
    rcases hp : parseRV d with _ | ⟨b, k, n⟩
    · rw [hp] at hd; simp at hd
    · have hrest : ∀ d2 ∈ rest, (parseRV d2).isSome = true :=
        fun d2 h2 => hall d2 (List.mem_cons_of_mem _ h2)
      have hkey : keyOfDev d = b := by simp [keyOfDev, hp]
      have hval : valOfDev d = (d, some (k, n)) := by simp [valOfDev, hp]
      rw [List.foldl_cons, hp]
      rw [ih hrest (ddAppend b (d, some (k, n)) acc)]
      show ddFold (kvsOf rest) (ddAppend b (d, some (k, n)) acc) =
        ddFold (kvsOf (d :: rest)) acc
      rw [show kvsOf (d :: rest) = (b, (d, some (k, n))) :: kvsOf rest by
        simp [kvsOf, hkey, hval]]
      rfl

theorem mem_members_rv (ds : List String) {d b : String} {k : Char} {n : String}
    (hd : d ∈ ds) (hp : parseRV d = some (b, k, n)) :
    (d, some (k, n)) ∈ selOf (kvsOf ds) b := by
  rw [show selOf (kvsOf ds) b =
    (ds.filter (fun d => keyOfDev d = b)).map valOfDev from
    selOf_map_fn keyOfDev valOfDev b ds]
  have hkey : keyOfDev d = b := by simp [keyOfDev, hp]
  have hval : valOfDev d = (d, some (k, n)) := by simp [valOfDev, hp]
  rw [← hval]
  exact List.mem_map_of_mem _ (List.mem_filter.mpr ⟨hd, by simp [hkey]⟩)

theorem members_origin_rv {ds : List String} {b : String}
    {m : String × Option (Char × String)} (hm : m ∈ selOf (kvsOf ds) b) :
    ∃ d2 ∈ ds, keyOfDev d2 = b ∧ m = valOfDev d2 := by
  rw [show selOf (kvsOf ds) b =
    (ds.filter (fun d => keyOfDev d = b)).map valOfDev from
    selOf_map_fn keyOfDev valOfDev b ds] at hm
  obtain ⟨d2, hd2, hval⟩ := List.mem_map.mp hm
  obtain ⟨hd2m, hkey⟩ := List.mem_filter.mp hd2
  exact ⟨d2, hd2m, by simpa using hkey, hval.symm⟩

theorem groupPhase2_eq_applyW_rv :
    ∀ (entries : List (String × List (String × Option (Char × String)))),
      groupPhase2 entries = applyW [] (catMap writesOf entries) := by
  suffices h : ∀ entries acc, entries.foldl
      (fun acc (e : String × List (String × Option (Char × String))) =>
        let members := e.2
        if 1 < members.length then
          let sorted := List.insertionSort
            (fun a b => kindNumLe (memKind a, memNum a) (memKind b, memNum b)
              = true) members
          let rDevs := sorted.filter (fun m => memKind m = 'r')
          let vDevs := sorted.filter (fun m => memKind m = 'v')
          let acc1 :=
            if 1 < rDevs.length then
              let nums := joinStr (rDevs.map memNum)
              let gname := e.1 ++ "-r[" ++ nums ++ "]"
              rDevs.foldl (fun a m => dAssign m.1 gname a) acc
            else
              match rDevs with
              | [m] => dAssign m.1 m.1 acc
              | _ => acc
          vDevs.foldl (fun a m => dAssign m.1 m.1 a) acc1
        else
          match members with
          | [m] => dAssign m.1 m.1 acc
          | _ => acc)
      acc = applyW acc (catMap writesOf entries) by
    intro entries
    exact h entries []
  intro entries
  induction entries with
  | nil => intro acc; rfl
  | cons e rest ih =>
    intro acc
    rw [List.foldl_cons, ih]
    have hstep : ∀ (acc2 : List (String × String)),
        (let members := e.2
        if 1 < members.length then
          let sorted := List.insertionSort
            (fun a b => kindNumLe (memKind a, memNum a) (memKind b, memNum b)
              = true) members
          let rDevs := sorted.filter (fun m => memKind m = 'r')
          let vDevs := sorted.filter (fun m => memKind m = 'v')
          let acc1 :=
            if 1 < rDevs.length then
              let nums := joinStr (rDevs.map memNum)
              let gname := e.1 ++ "-r[" ++ nums ++ "]"
              rDevs.foldl (fun a m => dAssign m.1 gname a) acc2
            else
              match rDevs with
              | [m] => dAssign m.1 m.1 acc2
              | _ => acc2
          vDevs.foldl (fun a m => dAssign m.1 m.1 a) acc1
        else
          match members with
          | [m] => dAssign m.1 m.1 acc2
          | _ => acc2) = applyW acc2 (writesOf e) := by
      intro acc2
      by_cases hlen : 1 < e.2.length
      · simp only [hlen, if_pos, writesOf]
        rw [applyW_append]
        have hv : ∀ (a0 : List (String × String))
            (l : List (String × Option (Char × String))),
            applyW a0 (l.map (fun m => (m.1, m.1))) =
              l.foldl (fun a m => dAssign m.1 m.1 a) a0 := by
          intro a0 l
          rw [applyW, List.foldl_map]
        have hg : ∀ (a0 : List (String × String)) (g : String)
            (l : List (String × Option (Char × String))),
            applyW a0 (l.map (fun m => (m.1, g))) =
              l.foldl (fun a m => dAssign m.1 g a) a0 := by
          intro a0 g l
          rw [applyW, List.foldl_map]
        rw [hv]
        by_cases hr : 1 < ((List.insertionSort
            (fun a b => kindNumLe (memKind a, memNum a) (memKind b, memNum b)
              = true) e.2).filter (fun m => memKind m = 'r')).length
        · rw [if_pos hr, if_pos hr, hg]
        · rw [if_neg hr, if_neg hr]
          rcases hrd : (List.insertionSort
              (fun a b => kindNumLe (memKind a, memNum a) (memKind b, memNum b)
                = true) e.2).filter (fun m => memKind m = 'r') with
            _ | ⟨m, rest2⟩
          · rfl
          · rcases rest2 with _ | ⟨m2, rest3⟩
            · rfl
            · rw [hrd] at hr
              simp at hr
      · simp only [hlen, if_neg, writesOf]
        rcases e2 : e.2 with _ | ⟨m, rest2⟩
        · rfl
        · rcases rest2 with _ | ⟨m2, rest3⟩
          · rfl
          · rw [e2] at hlen
            simp at hlen
    rw [hstep]
    rw [show catMap writesOf (e :: rest) = writesOf e ++ catMap writesOf rest
      from rfl]
    rw [applyW_append]

theorem writesOf_fst_rv {e : String × List (String × Option (Char × String))}
    {w : String × String} (hw : w ∈ writesOf e) : ∃ m ∈ e.2, w.1 = m.1 := by
  rw [writesOf] at hw
  by_cases hlen : 1 < e.2.length
  · rw [if_pos hlen] at hw
    dsimp only at hw
    rcases List.mem_append.mp hw with hw2 | hw2
    · by_cases hr : 1 < ((List.insertionSort
          (fun a b => kindNumLe (memKind a, memNum a) (memKind b, memNum b)
            = true) e.2).filter (fun m => memKind m = 'r')).length
      · rw [if_pos hr] at hw2
        obtain ⟨m, hm, hwm⟩ := List.mem_map.mp hw2
        have hmm : m ∈ e.2 := (List.perm_insertionSort _ e.2).mem_iff.mp
          (List.mem_of_mem_filter hm)
        exact ⟨m, hmm, by rw [← hwm]⟩
      · rw [if_neg hr] at hw2
        rcases hrd : (List.insertionSort
            (fun a b => kindNumLe (memKind a, memNum a) (memKind b, memNum b)
              = true) e.2).filter (fun m => memKind m = 'r') with
          _ | ⟨m, rest2⟩
        · rw [hrd] at hw2; simp at hw2
        · rcases rest2 with _ | ⟨m2, rest3⟩
          · rw [hrd] at hw2
            simp only [List.mem_singleton] at hw2
            have hmm : m ∈ e.2 := (List.perm_insertionSort _ e.2).mem_iff.mp
              (List.mem_of_mem_filter (by rw [hrd]; exact List.mem_singleton.mpr rfl))
            exact ⟨m, hmm, by rw [hw2]⟩
          · rw [hrd] at hr
            simp at hr
    · obtain ⟨m, hm, hwm⟩ := List.mem_map.mp hw2
      have hmm : m ∈ e.2 := (List.perm_insertionSort _ e.2).mem_iff.mp
        (List.mem_of_mem_filter hm)
      exact ⟨m, hmm, by rw [← hwm]⟩
  · rw [if_neg hlen] at hw
    rcases e2 : e.2 with _ | ⟨m, rest2⟩
    · rw [e2] at hw; simp at hw
    · rcases rest2 with _ | ⟨m2, rest3⟩
      · rw [e2] at hw
        simp only [List.mem_singleton] at hw
        exact ⟨m, by simp [e2], by rw [hw]⟩
      · rw [e2] at hlen
        simp at hlen

theorem mem_unique_val {ds : List String} {b d : String}
    {m : String × Option (Char × String)} (hm : m ∈ selOf (kvsOf ds) b)
    (hmd : m.1 = d) : m = valOfDev d := by
  obtain ⟨d2, _, _, hval⟩ := members_origin_rv hm
  have hd2 : d2 = d := by
    rw [hval] at hmd
    exact hmd
  rw [hval, hd2]

theorem lookup_local (ds : List String)
    (hall : ∀ d ∈ ds, (parseRV d).isSome = true) {d b : String} {k : Char}
    {n : String} (hd : d ∈ ds) (hp : parseRV d = some (b, k, n)) :
    lookupA (groupDevices ds) d =
      match lastW d (writesOf ((b, selOf (kvsOf ds) b) :
          String × List (String × Option (Char × String)))) with
      | some v => some v
      | none => (none : Option String) := by
  rw [groupDevices, groupPhase1_eq_ddFold_rv ds hall, groupPhase2_eq_applyW_rv,
    lookupA_applyW]
  have hmem := mem_members_rv ds hd hp
  have hkeyd : keyOfDev d = b := by simp [keyOfDev, hp]
  have hsel : selOf (kvsOf ds) b ≠ [] := by
    intro hnil
    rw [hnil] at hmem
    simp at hmem
  have he0 : ((b, selOf (kvsOf ds) b) :
      String × List (String × Option (Char × String))) ∈
        ddFold (kvsOf ds) [] :=
    entry_exists_ddFold _ _ hsel
  have hother : ∀ e ∈ ddFold (kvsOf ds) [],
      e ≠ (b, selOf (kvsOf ds) b) → lastW d (writesOf e) = none := by
    intro e he hne
    apply lastW_eq_none
    intro w hw hwd
    obtain ⟨m, hme, hwm⟩ := writesOf_fst_rv hw
    have hesel := (mem_entry_ddFold he).1
    rw [hesel] at hme
    obtain ⟨d2, _, hkey2, hval2⟩ := members_origin_rv hme
    have hd2 : d2 = d := by
      have hm1 : m.1 = d2 := by rw [hval2]; rfl
      rw [← hwd, hwm, hm1]
    rw [hd2] at hkey2
    rw [hkeyd] at hkey2
    apply hne
    have he2 : e = (e.1, e.2) := rfl
    rw [he2, hesel, hkey2]
  rw [lastW_catMap_single he0 hother]
  rcases lastW d (writesOf ((b, selOf (kvsOf ds) b) :
      String × List (String × Option (Char × String)))) with _ | v
  · rfl
  · rfl

theorem lookup_v (ds : List String)
    (hall : ∀ d ∈ ds, (parseRV d).isSome = true) {d b n : String}
    (hd : d ∈ ds) (hp : parseRV d = some (b, 'v', n)) :
    lookupA (groupDevices ds) d = some d := by
  rw [lookup_local ds hall hd hp]
  have hmem := mem_members_rv ds hd hp
  have hlast : lastW d (writesOf ((b, selOf (kvsOf ds) b) :
      String × List (String × Option (Char × String)))) = some d := by
    by_cases hlen : 1 < (selOf (kvsOf ds) b).length
    · rw [writesOf, if_pos hlen]
      dsimp only
      rw [lastW_append]
      have hv2 : lastW d (((List.insertionSort
          (fun a c => kindNumLe (memKind a, memNum a) (memKind c, memNum c)
            = true) (selOf (kvsOf ds) b)).filter
              (fun m => memKind m = 'v')).map (fun m => (m.1, m.1))) =
          some d := by
        apply lastW_all_eq
        · have hsort : ((d, some ('v', n)) :
              String × Option (Char × String)) ∈ List.insertionSort
              (fun a c => kindNumLe (memKind a, memNum a) (memKind c, memNum c)
                = true) (selOf (kvsOf ds) b) :=
            ((List.perm_insertionSort _ _).mem_iff).mpr hmem
          have hfilt : ((d, some ('v', n)) :
              String × Option (Char × String)) ∈ (List.insertionSort
              (fun a c => kindNumLe (memKind a, memNum a) (memKind c, memNum c)
                = true) (selOf (kvsOf ds) b)).filter
                (fun m => memKind m = 'v') :=
            List.mem_filter.mpr ⟨hsort, by simp [memKind]⟩
          exact ⟨(d, d), List.mem_map_of_mem _ hfilt, rfl⟩
        · intro w hw hwd
          obtain ⟨m, hm, hwm⟩ := List.mem_map.mp hw
          rw [← hwm] at hwd ⊢
          exact hwd
      rw [hv2]
    · have hone : selOf (kvsOf ds) b = [(d, some ('v', n))] := by
        rcases hs : selOf (kvsOf ds) b with _ | ⟨m, rest2⟩
        · rw [hs] at hmem; simp at hmem
        · rcases rest2 with _ | ⟨m2, rest3⟩
          · rw [hs] at hmem
            rw [← List.mem_singleton.mp hmem]
          · rw [hs] at hlen
            simp at hlen
      rw [writesOf, hone]
      dsimp only
      simp [lastW]
  rw [hlast]

theorem lookup_r (ds : List String)
    (hall : ∀ d ∈ ds, (parseRV d).isSome = true) {d1 d2 b n1 n2 : String}
    (hd1 : d1 ∈ ds) (hd2 : d2 ∈ ds) (hne : d1 ≠ d2)
    (hp1 : parseRV d1 = some (b, 'r', n1))
    (hp2 : parseRV d2 = some (b, 'r', n2)) :
    ∃ g, lookupA (groupDevices ds) d1 = some g ∧
      lookupA (groupDevices ds) d2 = some g ∧
      startsW (b ++ "-r[") g = true := by
  have hmem1 := mem_members_rv ds hd1 hp1
  have hmem2 := mem_members_rv ds hd2 hp2
  have hlen : 1 < (selOf (kvsOf ds) b).length := by
    have h2 := two_le_length_of_mem_ne hmem1 hmem2
      (fun h => hne (congrArg Prod.fst h))
    omega
  have hr1 : ((d1, some ('r', n1)) : String × Option (Char × String)) ∈
      (List.insertionSort
        (fun a c => kindNumLe (memKind a, memNum a) (memKind c, memNum c)
          = true) (selOf (kvsOf ds) b)).filter (fun m => memKind m = 'r') :=
    List.mem_filter.mpr
      ⟨((List.perm_insertionSort _ _).mem_iff).mpr hmem1, by simp [memKind]⟩
  have hr2 : ((d2, some ('r', n2)) : String × Option (Char × String)) ∈
      (List.insertionSort
        (fun a c => kindNumLe (memKind a, memNum a) (memKind c, memNum c)
          = true) (selOf (kvsOf ds) b)).filter (fun m => memKind m = 'r') :=
    List.mem_filter.mpr
      ⟨((List.perm_insertionSort _ _).mem_iff).mpr hmem2, by simp [memKind]⟩
  have hrlen : 1 < ((List.insertionSort
      (fun a c => kindNumLe (memKind a, memNum a) (memKind c, memNum c)
        = true) (selOf (kvsOf ds) b)).filter
          (fun m => memKind m = 'r')).length := by
    have h2 := two_le_length_of_mem_ne hr1 hr2
      (fun h => hne (congrArg Prod.fst h))
    omega
  have hkey : ∀ (d n : String), d ∈ ds → parseRV d = some (b, 'r', n) →
      lastW d (writesOf ((b, selOf (kvsOf ds) b) :
        String × List (String × Option (Char × String)))) =
      some (b ++ "-r[" ++ joinStr (((List.insertionSort
        (fun a c => kindNumLe (memKind a, memNum a) (memKind c, memNum c)
          = true) (selOf (kvsOf ds) b)).filter
            (fun m => memKind m = 'r')).map memNum) ++ "]") := by
    intro d n hd hp
    have hmem := mem_members_rv ds hd hp
    rw [writesOf, if_pos hlen]
    dsimp only
    rw [lastW_append]
    have hvnone : lastW d (((List.insertionSort
        (fun a c => kindNumLe (memKind a, memNum a) (memKind c, memNum c)
          = true) (selOf (kvsOf ds) b)).filter
            (fun m => memKind m = 'v')).map (fun m => (m.1, m.1))) =
        none := by
      apply lastW_eq_none
      intro w hw hwd
      obtain ⟨m, hm, hwm⟩ := List.mem_map.mp hw
      have hms : m ∈ selOf (kvsOf ds) b :=
        ((List.perm_insertionSort _ _).mem_iff).mp (List.mem_of_mem_filter hm)
      have hmd : m.1 = d := by rw [← hwm] at hwd; exact hwd
      have hmv : m = valOfDev d := mem_unique_val hms hmd
      have hk := (List.mem_filter.mp hm).2
      rw [hmv] at hk
      rw [show valOfDev d = (d, some ('r', n)) by simp [valOfDev, hp]] at hk
      simp [memKind] at hk
    have hrw : lastW d (((List.insertionSort
        (fun a c => kindNumLe (memKind a, memNum a) (memKind c, memNum c)
          = true) (selOf (kvsOf ds) b)).filter
            (fun m => memKind m = 'r')).map (fun m => (m.1,
              b ++ "-r[" ++ joinStr (((List.insertionSort
                (fun a c => kindNumLe (memKind a, memNum a)
                  (memKind c, memNum c) = true)
                (selOf (kvsOf ds) b)).filter
                  (fun m => memKind m = 'r')).map memNum) ++ "]"))) =
        some (b ++ "-r[" ++ joinStr (((List.insertionSort
          (fun a c => kindNumLe (memKind a, memNum a) (memKind c, memNum c)
            = true) (selOf (kvsOf ds) b)).filter
              (fun m => memKind m = 'r')).map memNum) ++ "]") := by
      apply lastW_all_eq
      · have hsort : ((d, some ('r', n)) :
            String × Option (Char × String)) ∈ List.insertionSort
            (fun a c => kindNumLe (memKind a, memNum a) (memKind c, memNum c)
              = true) (selOf (kvsOf ds) b) :=
          ((List.perm_insertionSort _ _).mem_iff).mpr hmem
        have hfilt : ((d, some ('r', n)) :
            String × Option (Char × String)) ∈ (List.insertionSort
            (fun a c => kindNumLe (memKind a, memNum a) (memKind c, memNum c)
              = true) (selOf (kvsOf ds) b)).filter
              (fun m => memKind m = 'r') :=
          List.mem_filter.mpr ⟨hsort, by simp [memKind]⟩
        exact ⟨_, List.mem_map_of_mem _ hfilt, rfl⟩
      · intro w hw hwd
        obtain ⟨m, hm, hwm⟩ := List.mem_map.mp hw
        rw [← hwm]
    rw [hvnone, if_pos hrlen, hrw]
  refine ⟨b ++ "-r[" ++ joinStr (((List.insertionSort
      (fun a c => kindNumLe (memKind a, memNum a) (memKind c, memNum c)
        = true) (selOf (kvsOf ds) b)).filter
          (fun m => memKind m = 'r')).map memNum) ++ "]",
    ?_, ?_, ?_⟩
  · rw [lookup_local ds hall hd1 hp1, hkey d1 n1 hd1 hp1]
  · rw [lookup_local ds hall hd2 hp2, hkey d2 n2 hd2 hp2]
  · rw [startsW]
    have hsplit : (b ++ "-r[" ++ joinStr (((List.insertionSort
        (fun a c => kindNumLe (memKind a, memNum a) (memKind c, memNum c)
          = true) (selOf (kvsOf ds) b)).filter
            (fun m => memKind m = 'r')).map memNum) ++ "]").toList =
        (b ++ "-r[").toList ++ (joinStr (((List.insertionSort
        (fun a c => kindNumLe (memKind a, memNum a) (memKind c, memNum c)
          = true) (selOf (kvsOf ds) b)).filter
            (fun m => memKind m = 'r')).map memNum) ++ "]").toList := by
      simp [String.toList]
    rw [hsplit]
    rw [List.isPrefixOf_iff_prefix]
    exact List.prefix_append _ _

end UmnProd

/-! ### Error-signalling characterizations -/

theorem initSite_isErr_iff (site : String) :
    isErr (UmnEc2.initSite site) = true ↔ ¬ SitePattern site := by
  rcases hm : UmnEc2.reMatchSite site with _ | p
  · rw [UmnEc2.initSite, hm]
    simp only [isErr, true_iff]
    intro hsp
    have hs := (reMatchSite_isSome_iff site).mpr hsp
    rw [hm] at hs
    simp at hs
  · rw [UmnEc2.initSite, hm]
    simp only [isErr, Bool.false_eq_true, false_iff, not_not]
    exact (reMatchSite_isSome_iff site).mp (by rw [hm]; rfl)

theorem constructBrickUrl_isErr_iff (site fabric : String) :
    isErr (BrickUrl.constructBrickUrl site fabric) = true ↔
      ¬ ThreeLower site := by
  rw [BrickUrl.constructBrickUrl]
  rcases hs : site.toList with _ | ⟨c1, t1⟩
  · simp only [isErr, true_iff]
    rintro ⟨d1, d2, d3, r, heq, _, _, _⟩
    rw [hs] at heq
    exact List.noConfusion heq
  · rcases t1 with _ | ⟨c2, t2⟩
    · simp only [isErr, true_iff]
      rintro ⟨d1, d2, d3, r, heq, _, _, _⟩
      rw [hs] at heq
      exact List.noConfusion (List.cons.inj heq).2
    · rcases t2 with _ | ⟨c3, t3⟩
      · simp only [isErr, true_iff]
        rintro ⟨d1, d2, d3, r, heq, _, _, _⟩
        rw [hs] at heq
        exact List.noConfusion (List.cons.inj (List.cons.inj heq).2).2
      · by_cases hc : (isLowerAZ c1 && isLowerAZ c2 && isLowerAZ c3) = true
        · dsimp only
          rw [if_pos hc]
          simp only [isErr, Bool.false_eq_true, false_iff, not_not]
          have h1 : isLowerAZ c1 = true := by
            rcases Bool.and_eq_true _ _ |>.mp hc with ⟨h12, _⟩
            exact (Bool.and_eq_true _ _ |>.mp h12).1
          have h2 : isLowerAZ c2 = true := by
            rcases Bool.and_eq_true _ _ |>.mp hc with ⟨h12, _⟩
            exact (Bool.and_eq_true _ _ |>.mp h12).2
          have h3 : isLowerAZ c3 = true :=
            (Bool.and_eq_true _ _ |>.mp hc).2
          exact ⟨c1, c2, c3, t3, hs, h1, h2, h3⟩
        · dsimp only
          rw [if_neg hc]
          simp only [isErr, true_iff]
          rintro ⟨d1, d2, d3, r, heq, hl1, hl2, hl3⟩
          rw [hs] at heq
          have e1 : c1 = d1 := (List.cons.inj heq).1
          have e2 : c2 = d2 := (List.cons.inj (List.cons.inj heq).2).1
          have e3 : c3 = d3 :=
            (List.cons.inj (List.cons.inj (List.cons.inj heq).2).2).1
          apply hc
          rw [e1, e2, e3, hl1, hl2, hl3]
          rfl

/-! ### Console _build_xml (dedup and referential-integrity) lemmas -/

theorem mem_dedupGoP :
    ∀ (l : List (String × String)) (seen : List (String × String))
      (k : String × String),
      k ∈ dedupGoP seen l ↔ k ∈ l ∧ k ∉ seen := by
  intro l
  induction l with
  | nil => intro seen k; simp [dedupGoP]
  | cons k0 rest ih =>
    intro seen k
    by_cases h0 : k0 ∈ seen
    · rw [dedupGoP, if_pos h0, ih]
      constructor
      · rintro ⟨h1, h2⟩
        exact ⟨List.mem_cons_of_mem _ h1, h2⟩
      · rintro ⟨h1, h2⟩
        rcases List.mem_cons.mp h1 with he | he
        · subst he; exact absurd h0 h2
        · exact ⟨he, h2⟩
    · rw [dedupGoP, if_neg h0]
      by_cases hk : k = k0
      · subst hk
        constructor
        · intro _
          exact ⟨List.mem_cons_self _ _, h0⟩
        · intro _
          exact List.mem_cons_self _ _
      · constructor
        · intro h1
          rcases List.mem_cons.mp h1 with he | he
          · exact absurd he hk
          · obtain ⟨h2, h3⟩ := (ih (k0 :: seen) k).mp he
            refine ⟨List.mem_cons_of_mem _ h2, ?_⟩
            intro hs2
            exact h3 (List.mem_cons_of_mem _ hs2)
        · rintro ⟨h1, h2⟩
          rcases List.mem_cons.mp h1 with he | he
          · exact absurd he hk
          · refine List.mem_cons_of_mem _ ((ih (k0 :: seen) k).mpr ⟨he, ?_⟩)
            intro hs2
            rcases List.mem_cons.mp hs2 with he2 | he2
            · exact hk he2
            · exact h2 he2

theorem dedupGoP_nodup :
    ∀ (l : List (String × String)) (seen : List (String × String)),
      (dedupGoP seen l).Nodup := by
  intro l
  induction l with
  | nil => intro seen; simp [dedupGoP]
  | cons k0 rest ih =>
    intro seen
    by_cases h0 : k0 ∈ seen
    · rw [dedupGoP, if_pos h0]
      exact ih seen
    · rw [dedupGoP, if_neg h0]
      refine List.nodup_cons.mpr ⟨?_, ih _⟩
      intro hmem
      exact ((mem_dedupGoP rest (k0 :: seen) k0).mp hmem).2
        (List.mem_cons_self _ _)

namespace Console

theorem buildConns_length (selfSite : String) (nodeIds : List (String × Nat))
    (d2n : List (String × String)) :
    ∀ (cs : List CConn) (added : List (String × String)) (cid : Nat),
      (buildConns selfSite nodeIds d2n added cid cs).length =
        (dedupGoP added (cs.filterMap (cKey d2n))).length := by
  intro cs
  induction cs with
  | nil => intro added cid; rfl
  | cons c rest ih =>
    intro added cid
    rcases hs : lookupA d2n c.source with _ | sn <;>
      rcases ht : lookupA d2n c.destination with _ | tn
    · simp [buildConns, cKey, hs, ht, List.filterMap_cons, ih]
    · simp [buildConns, cKey, hs, ht, List.filterMap_cons, ih]
    · simp [buildConns, cKey, hs, ht, List.filterMap_cons, ih]
    · by_cases hef : (sn = "" || tn = "") = true
      · simp [buildConns, cKey, hs, ht, hef, List.filterMap_cons, ih]
      · by_cases hin : (minS sn tn, maxS sn tn) ∈ added
        · simp [buildConns, cKey, hs, ht, hef, hin, List.filterMap_cons, ih,
            dedupGoP]
        · simp [buildConns, cKey, hs, ht, hef, hin, List.filterMap_cons, ih,
            dedupGoP]

theorem buildConns_itype_irrel (selfSite : String)
    (nodeIds : List (String × Nat)) (d2n : List (String × String))
    (f : CConn → String) :
    ∀ (cs : List CConn) (added : List (String × String)) (cid : Nat),
      buildConns selfSite nodeIds d2n added cid
        (cs.map (fun c => ⟨c.source, c.destination, c.iface, f c⟩)) =
      buildConns selfSite nodeIds d2n added cid cs := by
  intro cs
  induction cs with
  | nil => intro added cid; rfl
  | cons c rest ih =>
    intro added cid
    rcases hs : lookupA d2n c.source with _ | sn <;>
      rcases ht : lookupA d2n c.destination with _ | tn
    · simp [buildConns, hs, ht, ih]
    · simp [buildConns, hs, ht, ih]
    · simp [buildConns, hs, ht, ih]
    · by_cases hef : (sn = "" || tn = "") = true
      · simp [buildConns, hs, ht, hef, ih]
      · by_cases hin : (minS sn tn, maxS sn tn) ∈ added
        · simp [buildConns, hs, ht, hef, hin, ih]
        · simp [buildConns, hs, ht, hef, hin, ih]

theorem foldl_dAssign_lookup {β : Type} (v : β) :
    ∀ (ds : List String) (m : List (String × β)) (x : String) (nk : β),
      lookupA (ds.foldl (fun m d => dAssign d v m) m) x = some nk →
      nk = v ∨ lookupA m x = some nk := by
  intro ds
  induction ds with
  | nil => intro m x nk h; exact Or.inr h
  | cons d rest ih =>
    intro m x nk h
    rw [List.foldl_cons] at h
    rcases ih _ x nk h with hv | hl
    · exact Or.inl hv
    · by_cases hd : d = x
      · subst hd
        rw [lookupA_dAssign_self] at hl
        exact Or.inl (Option.some.inj hl).symm
      · rw [lookupA_dAssign_ne _ _ hd] at hl
        exact Or.inr hl

theorem shapesStep_inv
    (st : List Shape × List (String × Nat) × List (String × String) × Nat)
    (e : String × NodeData) (hP : ShapesInv st) :
    ShapesInv
      (st.1 ++ [⟨st.2.2.2,
          "<b>" ++ e.2.label ++ "</b><br/><i>" ++ e.2.role ++ "</i>",
          nodeStyle (e.2.role = "Inter-AZ") e.2.color,
          e.2.x, e.2.y, 220, 90⟩],
        dAssign e.1 st.2.2.2 st.2.1,
        e.2.devices.foldl (fun m d => dAssign d e.1 m) st.2.2.1,
        st.2.2.2 + 1) := by
  obtain ⟨hA, hB⟩ := hP
  constructor
  · intro d nk h
    rcases foldl_dAssign_lookup e.1 e.2.devices st.2.2.1 d nk h with hv | hl
    · subst hv
      exact ⟨st.2.2.2, lookupA_dAssign_self _ _ _⟩
    · obtain ⟨i, hi⟩ := hA d nk hl
      by_cases hk : e.1 = nk
      · subst hk
        exact ⟨st.2.2.2, lookupA_dAssign_self _ _ _⟩
      · exact ⟨i, by rw [lookupA_dAssign_ne _ _ hk]; exact hi⟩
  · intro nk i h
    by_cases hk : e.1 = nk
    · subst hk
      rw [lookupA_dAssign_self] at h
      have hi : i = st.2.2.2 := (Option.some.inj h).symm
      subst hi
      rw [List.map_append]
      exact List.mem_append_right _ (by simp)
    · rw [lookupA_dAssign_ne _ _ hk] at h
      rw [List.map_append]
      exact List.mem_append_left _ (hB nk i h)

theorem buildShapes_inv : ∀ (nodes : List (String × NodeData)),
    ShapesInv (buildShapes nodes) := by
  suffices h : ∀ (nodes : List (String × NodeData)) st, ShapesInv st →
      ShapesInv (nodes.foldl (fun st e =>
        (st.1 ++ [⟨st.2.2.2,
            "<b>" ++ e.2.label ++ "</b><br/><i>" ++ e.2.role ++ "</i>",
            nodeStyle (e.2.role = "Inter-AZ") e.2.color,
            e.2.x, e.2.y, 220, 90⟩],
          dAssign e.1 st.2.2.2 st.2.1,
          e.2.devices.foldl (fun m d => dAssign d e.1 m) st.2.2.1,
          st.2.2.2 + 1)) st) by
    intro nodes
    have hbase : ShapesInv (([], [], [], 2) : List Shape ×
        List (String × Nat) × List (String × String) × Nat) :=
      ⟨fun d nk h => Option.noConfusion h,
       fun nk i h => Option.noConfusion h⟩
    exact h nodes ([], [], [], 2) hbase
  intro nodes
  induction nodes with
  | nil => exact fun st h => h
  | cons e rest ih =>
    intro st h
    rw [List.foldl_cons]
    exact ih _ (shapesStep_inv st e h)

theorem buildConns_refs (selfSite : String) (nodeIds : List (String × Nat))
    (d2n : List (String × String))
    (hA : ∀ d nk, lookupA d2n d = some nk →
      ∃ i, lookupA nodeIds nk = some i) :
    ∀ (cs : List CConn) (added : List (String × String)) (cid : Nat),
      ∀ k ∈ buildConns selfSite nodeIds d2n added cid cs,
        (∃ nk i, lookupA nodeIds nk = some i ∧ k.source = i) ∧
        (∃ nk i, lookupA nodeIds nk = some i ∧ k.target = i) := by
  intro cs
  induction cs with
  | nil => intro added cid k hk; simp [buildConns] at hk
  | cons c rest ih =>
    intro added cid k hk
    rcases hs : lookupA d2n c.source with _ | sn <;>
      rcases ht : lookupA d2n c.destination with _ | tn
    · simp only [buildConns, hs, ht] at hk
      exact ih added cid k hk
    · simp only [buildConns, hs, ht] at hk
      exact ih added cid k hk
    · simp only [buildConns, hs, ht] at hk
      exact ih added cid k hk
    · simp only [buildConns, hs, ht] at hk
      by_cases hef : (sn = "" || tn = "") = true
      · rw [if_pos hef] at hk
        exact ih added cid k hk
      · rw [if_neg hef] at hk
        by_cases hin : (minS sn tn, maxS sn tn) ∈ added
        · rw [if_pos hin] at hk
          exact ih added cid k hk
        · rw [if_neg hin] at hk
          rcases List.mem_cons.mp hk with he | he
          · subst he
            obtain ⟨i, hi⟩ := hA c.source sn hs
            obtain ⟨j, hj⟩ := hA c.destination tn ht
            constructor
            · refine ⟨sn, i, hi, ?_⟩
              show (lookupA nodeIds sn).getD 0 = i
              rw [hi]
              rfl
            · refine ⟨tn, j, hj, ?_⟩
              show (lookupA nodeIds tn).getD 0 = j
              rw [hj]
              rfl
          · exact ih _ _ k he

end Console

/-! ### The claims -/

/-- Claim C1 (as holding for the dsn/corp_nap canonicalizer, not for the
console emitter): `deduplicate_connections` never emits a canonical edge
whose two resolved endpoints coincide, and on the scenario devices
`{x-r1, x-r2}` with the single raw edge `(x-r1, x-r2)` the grouping
yields the one group `x-r[12]` and the canonical edge list is empty. -/
theorem claim_C1_no_self_loops_dsn :
    (∀ (conns : List Conn) (groups : List (String × String)),
      ∀ e ∈ Dsn.deduplicateConnections conns groups, e.source ≠ e.target) ∧
    pySort (dedupFirst ((Dsn.groupDevices ["x-r1", "x-r2"]).map Prod.snd)) =
      ["x-r[12]"] ∧
    Dsn.deduplicateConnections [⟨"x-r1", "x-r2", "physical"⟩]
      (Dsn.groupDevices ["x-r1", "x-r2"]) = [] := by
  refine ⟨?_, by decide, by decide⟩
  intro conns groups e he
  exact (CorpNap.mem_dedupGoC groups conns [] e he).1

/-- Claim C1, counterexample: the console `_build_xml` has no self-loop
check — when both endpoints of a brick connection resolve to the same
display node (here the grouped pair `bjs11-1-mgmt-cor-r[1,2]`, node
identifier 2), a connector whose source and target shape identifiers
coincide is emitted. -/
theorem claim_C1_console_self_loop_cex :
    ((Console.generate "bjs11-1"
      ["bjs11-1-mgmt-cor-r1", "bjs11-1-mgmt-cor-r2"]
      [⟨"bjs11-1-mgmt-cor-r1", "bjs11-1-mgmt-cor-r2", "eth0",
        "physical"⟩]).connectors.map (fun k => (k.source, k.target))) =
      [(2, 2)] := by decide

/-- Claim C2 (split by cited path).  corp_nap/dsn's
`deduplicate_connections` keeps exactly one canonical edge per key
`(sorted resolved pair, category)` — pairwise-distinct keys, soundness
and completeness — so two raw edges over the same unordered pair whose
categories DIFFER are not merged there (see the counterexample).
Console's `_build_xml` dedup, by contrast, is category-blind as claimed:
its connector count equals the number of distinct resolved unordered
node pairs of the raw edges (`cKey` reads neither category nor
interface; `dedupGoP` is first-occurrence dedup of those pair keys, with
no duplicates and exactly the fresh keys), and rewriting every raw
edge's category leaves the emitted connectors identical. -/
theorem claim_C2_dedup_per_key (conns : List Conn)
    (groups : List (String × String)) :
    ((CorpNap.deduplicateConnections conns groups).Pairwise
      (fun e1 e2 => CorpNap.ckey e1 ≠ CorpNap.ckey e2) ∧
    (∀ e ∈ CorpNap.deduplicateConnections conns groups,
      e.source ≠ e.target ∧ ∃ c ∈ conns, e = CorpNap.resolveConn groups c) ∧
    (∀ c ∈ conns,
      CorpNap.resolveG groups c.source ≠ CorpNap.resolveG groups c.target →
      ∃ e ∈ CorpNap.deduplicateConnections conns groups,
        CorpNap.ckey e = CorpNap.rkey groups c)) ∧
    (∀ (selfSite : String) (nodeIds : List (String × Nat))
        (d2n : List (String × String)) (added : List (String × String))
        (cid : Nat) (cs : List Console.CConn),
      (Console.buildConns selfSite nodeIds d2n added cid cs).length =
        (dedupGoP added (cs.filterMap (Console.cKey d2n))).length) ∧
    (∀ (seen keys : List (String × String)),
      (dedupGoP seen keys).Nodup ∧
      ∀ k, k ∈ dedupGoP seen keys ↔ k ∈ keys ∧ k ∉ seen) ∧
    (∀ (selfSite : String) (nodeIds : List (String × Nat))
        (d2n : List (String × String)) (added : List (String × String))
        (cid : Nat) (cs : List Console.CConn) (f : Console.CConn → String),
      Console.buildConns selfSite nodeIds d2n added cid
        (cs.map (fun c => ⟨c.source, c.destination, c.iface, f c⟩)) =
        Console.buildConns selfSite nodeIds d2n added cid cs) := by
  refine ⟨⟨CorpNap.dedupGoC_pairwise groups conns [], ?_, ?_⟩, ?_, ?_, ?_⟩
  · intro e he
    have h := CorpNap.mem_dedupGoC groups conns [] e he
    exact ⟨h.1, h.2.2⟩
  · intro c hc hne
    exact CorpNap.dedupGoC_complete groups conns [] c hc hne
      (List.not_mem_nil _)
  · intro selfSite nodeIds d2n added cid cs
    exact Console.buildConns_length selfSite nodeIds d2n cs added cid
  · intro seen keys
    exact ⟨dedupGoP_nodup keys seen, fun k => mem_dedupGoP keys seen k⟩
  · intro selfSite nodeIds d2n added cid cs f
    exact Console.buildConns_itype_irrel selfSite nodeIds d2n f cs added cid

/-- Claim C2, counterexample: two raw edges over the same unordered
endpoint pair `{a, b}` whose categories differ produce TWO canonical
edges, not one — the dedup key includes the category. -/
theorem claim_C2_category_split_cex :
    CorpNap.deduplicateConnections
        [⟨"a", "b", "t1"⟩, ⟨"b", "a", "t2"⟩] [] =
      [⟨"a", "b", "t1"⟩, ⟨"b", "a", "t2"⟩] := by decide

/-- Claim C3 (as holding for umn_prod's `group_devices`, not for the
umn_ec2 complete generator's): when every device matches `-[rv]N`, a
`v`-suffixed device is always displayed as itself (never merged), while
two distinct `r`-suffixed devices sharing a base are both displayed as
one shared `base-r[...]` group name. -/
theorem claim_C3_umn_prod_kind_grouping (ds : List String)
    (hall : ∀ d ∈ ds, (UmnProd.parseRV d).isSome = true) :
    (∀ d b n, d ∈ ds → UmnProd.parseRV d = some (b, 'v', n) →
      lookupA (UmnProd.groupDevices ds) d = some d) ∧
    (∀ d1 d2 b n1 n2, d1 ∈ ds → d2 ∈ ds → d1 ≠ d2 →
      UmnProd.parseRV d1 = some (b, 'r', n1) →
      UmnProd.parseRV d2 = some (b, 'r', n2) →
      ∃ g, lookupA (UmnProd.groupDevices ds) d1 = some g ∧
        lookupA (UmnProd.groupDevices ds) d2 = some g ∧
        startsW (b ++ "-r[") g = true) := by
  constructor
  · intro d b n hd hp
    exact UmnProd.lookup_v ds hall hd hp
  · intro d1 d2 b n1 n2 hd1 hd2 hne hp1 hp2
    exact UmnProd.lookup_r ds hall hd1 hd2 hne hp1 hp2

/-- Claim C3, witness: on `{x-r1, x-r2, x-v1}` the `v`-device `x-v1` is
displayed as itself. -/
theorem claim_C3_kind_grouping_inst :
    lookupA (UmnProd.groupDevices ["x-r1", "x-r2", "x-v1"]) "x-v1" =
      some "x-v1" :=
  (claim_C3_umn_prod_kind_grouping ["x-r1", "x-r2", "x-v1"]
    (by decide)).1 "x-v1" "x" "1" (by decide) (by decide)

/-- Claim C3, counterexample: the umn_ec2 complete generator merges by
base only — `x-r1` and `x-v1` share a base but differ in suffix kind,
yet both land in the single display group `x-[r1,v1]`. -/
theorem claim_C3_ec2_mixed_kinds_cex :
    UmnEc2C.groupOf ["x-r1", "x-v1"] "x-r1" = some "x-[r1,v1]" ∧
    UmnEc2C.groupOf ["x-r1", "x-v1"] "x-v1" = some "x-[r1,v1]" := by decide

/-- Claim C4 (with the label corrected, per cited path): singleton
groups take the bare device name in BOTH cited label constructions.  For
a multi-member group, dsn's `group_devices` (when every device matches
`-rN`) produces `base-r[` + the suffix digit-strings sorted AS STRINGS
and joined with NO separator + `]`, while console's label loop produces
`group-r[` + the post-`-r`-split suffixes of the member device names
sorted lexicographically by FULL NAME, comma-joined + `]`.  Neither is
the claimed numerically-sorted comma list. -/
theorem claim_C4_dsn_group_label (ds : List String)
    (hall : ∀ d ∈ ds, (Dsn.parseRN d).isSome = true) (d b n : String)
    (hd : d ∈ ds) (hp : Dsn.parseRN d = some (b, n)) :
    (lookupA (Dsn.groupDevices ds) d =
      some (if (Dsn.numsOf ds b).length ≤ 1 then d
        else b ++ "-r[" ++ joinStr (pySort (Dsn.numsOf ds b)) ++ "]")) ∧
    (∀ (g d2 : String), Console.nodeLabel [d2] g = d2) ∧
    (∀ (g : String) (devs : List String), 1 < devs.length →
      Console.nodeLabel devs g =
        g ++ "-r[" ++ joinComma ((pySort devs).map
          (fun d3 => (((pySplit d3 "-r").getLast?).getD ""))) ++ "]") := by
  refine ⟨Dsn.lookup_groupDevices ds hall d b n hd hp, ?_, ?_⟩
  · intro g d2
    rfl
  · intro g devs hlen
    rw [Console.nodeLabel, if_pos hlen]

/-- Claim C4, witness: on `{x-r2, x-r10}` the multi-member label of
`x-r2` is the concatenation of the string-sorted suffixes. -/
theorem claim_C4_group_label_inst :
    lookupA (Dsn.groupDevices ["x-r2", "x-r10"]) "x-r2" =
      some (if (Dsn.numsOf ["x-r2", "x-r10"] "x").length ≤ 1 then "x-r2"
        else "x" ++ "-r[" ++
          joinStr (pySort (Dsn.numsOf ["x-r2", "x-r10"] "x")) ++ "]") :=
  (claim_C4_dsn_group_label ["x-r2", "x-r10"] (by decide) "x-r2" "x" "2"
    (by decide) (by decide)).1

/-- Claim C4, counterexample: for members `x-r2` and `x-r10` the claimed
label is `x-r[2,10]` (numeric sort, comma-joined).  dsn produces
`x-r[102]` (lexicographic string sort `10 < 2`, joined bare); console's
label construction produces `x-r[10,2]` (comma-joined, but sorted by
device name, under which `x-r10` precedes `x-r2`). -/
theorem claim_C4_label_order_cex :
    (lookupA (Dsn.groupDevices ["x-r2", "x-r10"]) "x-r2" =
      some "x-r[102]") ∧
    ("x-r[102]" : String) ≠ "x-r[2,10]" ∧
    Console.nodeLabel ["x-r2", "x-r10"] "x" = "x-r[10,2]" ∧
    ("x-r[10,2]" : String) ≠ "x-r[2,10]" := by decide

/-- Claim C5 (with the context corrected): corp_nap's
`parse_attr_content` completes its HOSTNAME pass over the whole input
before any connection-bearing line is examined, so when parsing succeeds
EVERY emitted edge has as its source the device named by the LAST
hostname-declaration line of the input — not the nearest preceding one.
A connection-bearing line seen when the input has no hostname line at
all contributes no edge (the conclusion forces every edge's source to
the last hostname, which exists whenever an edge does). -/
theorem claim_C5_source_is_last_hostname (lines devs : List String)
    (conns : List Conn)
    (h : CorpNap.parseAttrLines lines = .ok (devs, conns)) :
    ∀ c ∈ conns, some c.source = CorpNap.lastHostname lines := by
  rw [CorpNap.parseAttrLines] at h
  rcases hh : lines.foldlM CorpNap.hostStep ([], none) with e | st0
  · rw [hh] at h
    exact Except.noConfusion h
  · rw [hh] at h
    obtain ⟨d0, cur⟩ := st0
    have hcur : cur = CorpNap.lastHostname lines := by
      have h2 := CorpNap.hostFold_last lines ([], none) d0 cur hh
      rw [h2]
      rcases hl : (lines.filterMap CorpNap.hostnameOf).getLast? with _ | x
      · simp [CorpNap.lastHostname, orElseO, hl]
      · simp [CorpNap.lastHostname, orElseO, hl]
    have h3 : (lines.foldl (CorpNap.peerStep cur)
        (lines.foldl (CorpNap.ringStep cur)
          (lines.foldl (CorpNap.customerStep cur) (d0, [])))) =
        (devs, conns) := Except.ok.inj h
    intro c hc
    rw [← hcur]
    have hc3 : c ∈ (lines.foldl (CorpNap.peerStep cur)
        (lines.foldl (CorpNap.ringStep cur)
          (lines.foldl (CorpNap.customerStep cur) (d0, [])))).2 := by
      rw [h3]
      exact hc
    rcases CorpNap.peerFold_src cur lines _ c hc3 with hin | hsrc
    · rcases CorpNap.ringFold_src cur lines _ c hin with hin2 | hsrc
      · rcases CorpNap.customerFold_src cur lines _ c hin2 with hin3 | hsrc
        · exact absurd hin3 (List.not_mem_nil c)
        · exact hsrc
      · exact hsrc
    · exact hsrc

/-- Claim C5, witness: on a one-hostname input with one CUSTOMERLAG
line, the emitted edge's source is that hostname. -/
theorem claim_C5_last_hostname_inst :
    some ((⟨"h1", "c1", "customer"⟩ : Conn).source) =
      CorpNap.lastHostname ["HOSTNAME h1", "CUSTOMERLAG p DESC c1"] :=
  claim_C5_source_is_last_hostname
    ["HOSTNAME h1", "CUSTOMERLAG p DESC c1"] ["h1", "c1"]
    [⟨"h1", "c1", "customer"⟩] (by decide)
    ⟨"h1", "c1", "customer"⟩ (by decide)

/-- Claim C5, counterexample: the CUSTOMERLAG line sits between
`HOSTNAME h1` and `HOSTNAME h2`, so its nearest PRECEDING hostname is
`h1` — yet the edge is emitted with source `h2`, the last hostname of
the whole input. -/
theorem claim_C5_nearest_hostname_cex :
    CorpNap.parseAttrLines
        ["HOSTNAME h1", "CUSTOMERLAG port DESC cust1", "HOSTNAME h2"] =
      .ok (["h1", "h2", "cust1"], [⟨"h2", "cust1", "customer"⟩]) ∧
    ("h2" : String) ≠ "h1" := by decide

/-- Claim C6: a line of one of the denylisted neighbor-advertisement
categories (IBGPNEIGH, EBGPNEIGH, RRCLIENTNEIGH prefixes) never
contributes to `parse_attr_content`'s output — removing every such line
from the input leaves the extractor's result unchanged. -/
theorem claim_C6_denylist_filtered (lines : List String) :
    CorpNap.parseAttrLines
        (lines.filter (fun l => !(CorpNap.isDeny (pyStrip l)))) =
      CorpNap.parseAttrLines lines := by
  rw [CorpNap.parseAttrLines, CorpNap.parseAttrLines]
  rw [foldlM_except_filter_id CorpNap.hostStep _
    (fun b a ha => CorpNap.hostStep_deny b a (by simpa using ha))
    lines ([], none)]
  rcases hh : lines.foldlM CorpNap.hostStep ([], none) with e | st0
  · rfl
  · obtain ⟨d0, cur⟩ := st0
    show Except.ok
        ((lines.filter (fun l => !(CorpNap.isDeny (pyStrip l)))).foldl
          (CorpNap.peerStep cur)
          ((lines.filter (fun l => !(CorpNap.isDeny (pyStrip l)))).foldl
            (CorpNap.ringStep cur)
            ((lines.filter (fun l => !(CorpNap.isDeny (pyStrip l)))).foldl
              (CorpNap.customerStep cur) (d0, [])))) =
      Except.ok (lines.foldl (CorpNap.peerStep cur)
        (lines.foldl (CorpNap.ringStep cur)
          (lines.foldl (CorpNap.customerStep cur) (d0, []))))
    rw [foldl_filter_id (CorpNap.customerStep cur) _
      (fun b a ha => CorpNap.customerStep_deny cur b a (by simpa using ha))
      lines (d0, [])]
    rw [foldl_filter_id (CorpNap.ringStep cur) _
      (fun b a ha => CorpNap.ringStep_deny cur b a (by simpa using ha))
      lines _]
    rw [foldl_filter_id (CorpNap.peerStep cur) _
      (fun b a ha => CorpNap.peerStep_deny cur b a (by simpa using ha))
      lines _]

/-- Claim C7 (weakened to what the filter establishes): after umn_prod's
Site Filtering every retained edge touches the target AZ, every retained
external device has a retained edge to a local node, and every retained
device is listed in `DEVICE_DETAILS` — but a retained edge may reference
an endpoint that is NOT among the retained devices (see the
counterexample), so the both-endpoints-retained half of the claim fails. -/
theorem claim_C7_site_filter_inv (brick : UmnProd.Brick) (site : String) :
    (∀ c ∈ (UmnProd.parseBrickContent brick site).2,
      startsW (UmnProd.siteAz site) c.source = true ∨
        startsW (UmnProd.siteAz site) c.target = true) ∧
    (∀ d ∈ (UmnProd.parseBrickContent brick site).1,
      startsW (UmnProd.siteAz site) d = false →
      ∃ c ∈ (UmnProd.parseBrickContent brick site).2,
        (c.source = d ∧ startsW (UmnProd.siteAz site) c.target = true) ∨
        (c.target = d ∧ startsW (UmnProd.siteAz site) c.source = true)) ∧
    (∀ d ∈ (UmnProd.parseBrickContent brick site).1,
      d ∈ brick.deviceDetails) := by
  have hinv := UmnProd.outer_fold_preserves_inv (UmnProd.siteAz site)
    brick.nodesAndInterfaces ([], [])
    ⟨fun c hc => absurd hc (List.not_mem_nil c),
      fun d hd _ => absurd hd (List.not_mem_nil d)⟩
  refine ⟨?_, ?_, ?_⟩
  · intro c hc
    exact hinv.1 c hc
  · intro d hd hext
    exact hinv.2 d (List.mem_of_mem_filter hd) hext
  · intro d hd
    have h := List.of_mem_filter hd
    simpa using h

/-- Claim C7, counterexample: the edge from `bjs11-11-x` to `ext-1-y` is
retained (it touches the target AZ), but `ext-1-y` is not in
`DEVICE_DETAILS` and hence not among the retained devices — a retained
edge with a dangling endpoint. -/
theorem claim_C7_dangling_edge_cex :
    (UmnProd.parseBrickContent
        ⟨["bjs11-11-x"], [("bjs11-11-x", [("et-0", some "ext-1-y")])]⟩
        "bjs11-11").2 = [⟨"bjs11-11-x", "ext-1-y", "physical"⟩] ∧
    (UmnProd.parseBrickContent
        ⟨["bjs11-11-x"], [("bjs11-11-x", [("et-0", some "ext-1-y")])]⟩
        "bjs11-11").1 = ["bjs11-11-x"] ∧
    ("ext-1-y" : String) ∉ ["bjs11-11-x"] := by decide

/-- Claim C8 (referential integrity kept, the console iff dropped): in
dsn's emitted document every connector references the identifiers of
shapes present in the document, the connectors are exactly the edges
whose two endpoints are both in `device_cells` (an edge lacking a
placed endpoint is silently omitted), and an endpoint is placed exactly
when it is one of the (sorted, de-duplicated) devices.  In console's
`_build_xml` every emitted connector likewise references the
identifiers of shapes of the same document — but there "emitted iff
both endpoints placed" fails, because the unordered-pair dedup skips
later same-pair edges whose endpoints are all placed (see the
counterexample). -/
theorem claim_C8_connector_refs (devices : List String) (conns : List Conn)
    (site : String) :
    (∀ k ∈ (Dsn.generateDrawioXml devices conns site).connectors,
      k.source ∈ (Dsn.generateDrawioXml devices conns site).shapes.map
        Shape.id ∧
      k.target ∈ (Dsn.generateDrawioXml devices conns site).shapes.map
        Shape.id) ∧
    ((Dsn.generateDrawioXml devices conns site).connectors.map
        (fun k => (k.source, k.target)) =
      conns.filterMap (fun c =>
        (lookupA (Dsn.deviceCells devices site) c.source).bind
          (fun s => (lookupA (Dsn.deviceCells devices site) c.target).map
            (fun t => (s, t))))) ∧
    (∀ d : String,
      (lookupA (Dsn.deviceCells devices site) d).isSome = true ↔
        d ∈ Dsn.uniqDevices devices) ∧
    (∀ (selfSite : String) (nodes : List (String × Console.NodeData))
        (cs : List Console.CConn),
      ∀ k ∈ (Console.buildXml selfSite nodes cs).connectors,
        k.source ∈ (Console.buildXml selfSite nodes cs).shapes.map
          Shape.id ∧
        k.target ∈ (Console.buildXml selfSite nodes cs).shapes.map
          Shape.id) := by
  have hconn : (Dsn.generateDrawioXml devices conns site).connectors =
      Dsn.emitConns (Dsn.deviceCells devices site)
        (2 + (Dsn.uniqDevices devices).length) conns := rfl
  refine ⟨?_, ?_, ?_, ?_⟩
  · intro k hk
    have hpair : (k.source, k.target) ∈
        ((Dsn.generateDrawioXml devices conns site).connectors.map
          (fun k => (k.source, k.target))) :=
      List.mem_map_of_mem _ hk
    rw [hconn, Dsn.emitConns_pairs] at hpair
    obtain ⟨c, hc, hbind⟩ := List.mem_filterMap.mp hpair
    rcases hls : lookupA (Dsn.deviceCells devices site) c.source with _ | s
    · rw [hls] at hbind
      exact Option.noConfusion hbind
    · rcases hlt : lookupA (Dsn.deviceCells devices site) c.target with _ | t
      · rw [hls, hlt] at hbind
        exact Option.noConfusion hbind
      · rw [hls, hlt] at hbind
        have hst : (s, t) = (k.source, k.target) := Option.some.inj hbind
        have hs2 : s = k.source := congrArg Prod.fst hst
        have ht2 : t = k.target := congrArg Prod.snd hst
        constructor
        · rw [← hs2]
          exact Dsn.placeCells_lookup_mem site (Dsn.uniqDevices devices)
            2 100 100 c.source s hls
        · rw [← ht2]
          exact Dsn.placeCells_lookup_mem site (Dsn.uniqDevices devices)
            2 100 100 c.target t hlt
  · rw [hconn]
    exact Dsn.emitConns_pairs (Dsn.deviceCells devices site) conns
      (2 + (Dsn.uniqDevices devices).length)
  · intro d
    exact Dsn.placeCells_lookup_isSome site (Dsn.uniqDevices devices)
      2 100 100 d
  · intro selfSite nodes cs k hk
    have hinv := Console.buildShapes_inv nodes
    have href := Console.buildConns_refs selfSite
      (Console.buildShapes nodes).2.1 (Console.buildShapes nodes).2.2.1
      hinv.1 cs [] (Console.buildShapes nodes).2.2.2 k hk
    obtain ⟨⟨nk1, i, hi, hks⟩, nk2, j, hj, hkt⟩ := href
    constructor
    · rw [hks]
      exact hinv.2 nk1 i hi
    · rw [hkt]
      exact hinv.2 nk2 j hj

/-- Claim C8, counterexample: with two raw edges over the same two
placed nodes, console's `_build_xml` emits only ONE connector — yet the
second edge alone yields a connector, so both of its endpoints are
placed as shapes; "an edge is emitted if both of its endpoints were
placed" fails under the pair dedup. -/
theorem claim_C8_pair_dedup_cex :
    ((Console.generate "bjs11-1"
      ["bjs11-1-mgmt-cor-r1", "bjs11-1-es-cor-r1"]
      [⟨"bjs11-1-mgmt-cor-r1", "bjs11-1-es-cor-r1", "e0", "physical"⟩,
       ⟨"bjs11-1-es-cor-r1", "bjs11-1-mgmt-cor-r1", "e1",
         "backup"⟩]).connectors.map (fun k => (k.source, k.target))) =
      [(3, 2)] ∧
    ((Console.generate "bjs11-1"
      ["bjs11-1-mgmt-cor-r1", "bjs11-1-es-cor-r1"]
      [⟨"bjs11-1-es-cor-r1", "bjs11-1-mgmt-cor-r1", "e1",
        "backup"⟩]).connectors.map (fun k => (k.source, k.target))) =
      [(2, 3)] := by decide

/-- Claim C9 (split by component): the umn_ec2 generator's constructor
raises exactly on site strings outside the `letters digits - digits`
prefix pattern; `construct_brick_url` checks only THREE LEADING
LOWERCASE LETTERS (a strictly different condition); and dsn's
`construct_urls` never signals anything — it returns its three URLs for
every site string whatsoever. -/
theorem claim_C9_site_validation :
    (∀ site : String,
      isErr (UmnEc2.initSite site) = true ↔ ¬ SitePattern site) ∧
    (∀ site fabric : String,
      isErr (BrickUrl.constructBrickUrl site fabric) = true ↔
        ¬ ThreeLower site) ∧
    (∀ site : String, (Dsn.constructUrls site).length = 3) :=
  ⟨initSite_isErr_iff, constructBrickUrl_isErr_iff, fun _ => rfl⟩

/-- Claim C9, counterexample: `123` fails the naming pattern, yet the
dsn pipeline raises nothing and silently produces a one-shape,
zero-connector diagram for it. -/
theorem claim_C9_silent_dsn_cex :
    ¬ SitePattern "123" ∧
    (Dsn.mainRun "123" "x").shapes.length = 1 ∧
    (Dsn.mainRun "123" "x").connectors = [] := by
  refine ⟨?_, by decide, by decide⟩
  rintro ⟨a, b, c, r, heq, ha, hb, hc, hla, hdb, hdc⟩
  rcases a with _ | ⟨a0, a1⟩
  · exact ha rfl
  · have hlist : ("123" : String).toList = '1' :: '2' :: '3' :: [] := rfl
    rw [hlist] at heq
    simp only [List.cons_append] at heq
    have h0 : a0 = '1' := ((List.cons.inj heq).1).symm
    have hl := hla a0 (List.mem_cons_self _ _)
    rw [h0] at hl
    exact absurd hl (by decide)

/-- Claim C10: the console transform is a pure function of its
structured input, and no step depends on the iteration order of the
device collection — permuting the device list (its `set` semantics)
leaves the generated document byte-identical, positions and identifiers
included. -/
theorem claim_C10_deterministic_generate (site : String)
    (ds ds' : List String) (conns : List Console.CConn)
    (h : ds.Perm ds') :
    Console.generate site ds conns = Console.generate site ds' conns := by
  have h1 : pySort (ds.filter (fun d => startsW site d)) =
      pySort (ds'.filter (fun d => startsW site d)) :=
    pySort_eq_of_perm (h.filter _)
  have h2 : pySort (ds.filter (fun d => !(startsW site d))) =
      pySort (ds'.filter (fun d => !(startsW site d))) :=
    pySort_eq_of_perm (h.filter _)
  simp only [Console.generate, Console.groupDevices]
  rw [h1, h2]

/-- Claim C10, witness: swapping the two devices of the input list
leaves the generated document unchanged. -/
theorem claim_C10_generate_inst :
    Console.generate "s" ["b", "a"] [] = Console.generate "s" ["a", "b"] [] :=
  claim_C10_deterministic_generate "s" ["b", "a"] ["a", "b"] []
    (List.Perm.swap "a" "b" [])

end DCFab
